import Mathlib

/-!
Verification of the FLeCS graph-state engine and trajectory integrators.

This file gives a shallow embedding, in Lean 4, of the core of the FLeCS
repository (files `flecs/sets.py`, `flecs/cell_population.py`,
`flecs/trajectory.py`) and proves properties of that embedding.

Modelling conventions:
* torch tensors of shape `(n_cells, n_nodes, per_node_state_dim)` are
  modelled as total functions `ℕ → ℕ → ℕ → ℚ` (`GArr` below); shapes are
  carried separately where a claim talks about shapes. Rationals stand in
  for floats (the claims under study are exact-arithmetic statements).
* in-place mutation is modelled by explicit state passing: a Python method
  that mutates an object is a Lean function returning the updated object.
* a failing `assert` is modelled by an `Option`/`none` result; when a
  function returns `none` the caller's data is unchanged (state passing).
-/

/-- A rank-3 tensor value `(cell index, node index, feature index) ↦ ℚ`,
modelling one of the global arrays `state` / `production_rates` /
`decay_rates` of a `CellPopulation`. -/
abbrev GArr : Type := ℕ → ℕ → ℕ → ℚ

/-- The all-zero tensor, used as a default element when indexing lists of
tensors. -/
def zeroArr : GArr := fun _ _ _ => 0

/-! ## Message-passing aggregator (`SimpleConv`)

Modelled from the spec: the class `SimpleConv` lives in
`flecs/production.py`, which is not part of the sources under study (only
its call sites in `cell_population.py` are). The spec's contract is:
given source states `x` of shape `(n_cells, n_src_nodes, d)`, a local edge
list and a per-edge scalar weight array, for every edge `e = (s, t)` with
weight `w_e`, accumulate `w_e * x[:, s, :]` into `out[:, t, :]`
(scatter-add), starting from an all-zero output of shape
`(n_cells, n_tgt_nodes, d)`.

The index type `ι` stands for the broadcast axes (cell index and feature
index); the node axis is `ℕ`. -/

/-- One scatter-add step of the aggregator: accumulate the contribution of
the single weighted edge `ew` into the running output. -/
def scatterStep {ι : Type} (x : ι → ℕ → ℚ) (out : ι → ℕ → ℚ)
    (ew : (ℕ × ℕ) × ℚ) : ι → ℕ → ℚ :=
  fun i t => if t = ew.1.2 then out i t + ew.2 * x i ew.1.1 else out i t

/-- Modelled from the spec: the `SimpleConv` aggregator. Starting from an
all-zero output, scatter-add every weighted edge's contribution. -/
def simple_conv {ι : Type} (edges : List (ℕ × ℕ)) (weights : List ℚ)
    (x : ι → ℕ → ℚ) : ι → ℕ → ℚ :=
  (edges.zip weights).foldl (scatterStep x) (fun _ _ => 0)

/-! ## Integrators (`flecs/trajectory.py`) -/

/-- The loop body of `simulate_deterministic_trajectory_euler_steps`:
starting from state `s` at previous grid point `tp`, for each remaining
grid point `t` perform `state ← state + (t - tp) * f state` and record the
state. -/
def eulerFrom (f : GArr → GArr) : GArr → ℚ → List ℚ → List GArr
  | _, _, [] => []
  | s, tp, t :: ts =>
    let s2 := s + (t - tp) • f s
    s2 :: eulerFrom f s2 t ts

/-- `simulate_deterministic_trajectory_euler_steps` from
`flecs/trajectory.py`: record the initial state, then loop over
consecutive pairs of grid points performing explicit Euler steps.
`f` models `cell.get_derivatives`. -/
def simulate_deterministic_trajectory_euler_steps
    (f : GArr → GArr) (s0 : GArr) : List ℚ → List GArr
  | [] => [s0]
  | t0 :: ts => s0 :: eulerFrom f s0 t0 ts

/-- One tau-leaping update: `state ← relu (state + ΔP - ΔD)` where `ΔP`
and `ΔD` are the Poisson production/decay draws of this step
(`F.relu` is the elementwise `max (·) 0`). -/
def tauStep (s dP dD : GArr) : GArr :=
  fun i j k => max (s i j k + dP i j k - dD i j k) 0

/-- The loop body of `simulate_stochastic_trajectory`: perform a
tau-leaping update per draw pair and record each resulting state. -/
def stochSteps : GArr → List (GArr × GArr) → List GArr
  | _, [] => []
  | s, d :: ds =>
    let s2 := tauStep s d.1 d.2
    s2 :: stochSteps s2 ds

/-- `simulate_stochastic_trajectory` from `flecs/trajectory.py`. The
Poisson draws `ΔP ~ Poisson(tau * production_rates)` and
`ΔD ~ Poisson(tau * decay_rates)` are modelled by an oracle list `draws`
supplying the drawn values, one pair per Euler step of the time grid
(randomness itself is not part of the shallow embedding). The initial
state is recorded before the loop. -/
def simulate_stochastic_trajectory (s0 : GArr) (draws : List (GArr × GArr)) :
    List GArr :=
  s0 :: stochSteps s0 draws

/-! ## NodeSet state/rate views (`flecs/sets.py`, class `NodeSet`)

A `NodeSet` holds an inclusive index range `[idx_low, idx_high]` into the
node axis of its owner's global arrays. Reading `state` / `decay_rate` /
`production_rate` returns the slice `owner.<array>[:, idx_low:idx_high+1]`;
writing asserts that the assigned shape equals the view's shape and then
writes through. -/

/-- The owner (`CellPopulation`) side of a `NodeSet` view: the three
global arrays together with their common shape
`(n_cells, n_nodes, per_node_state_dim)`. -/
structure Owner where
  n_cells : ℕ
  n_nodes : ℕ
  dim : ℕ
  state : GArr
  decay_rates : GArr
  production_rates : GArr

/-- The index range of a `NodeSet` (both bounds inclusive). -/
structure NodeRange where
  idx_low : ℕ
  idx_high : ℕ
deriving DecidableEq, Repr

instance : Inhabited NodeRange := ⟨⟨0, 0⟩⟩

/-- `NodeSet.__len__`: `idx_high - idx_low + 1`. -/
def nsLen (ns : NodeRange) : ℕ := ns.idx_high - ns.idx_low + 1

/-- A rank-3 tensor value together with its shape, as assigned to or read
from a view. -/
structure TVal where
  rows : ℕ
  cols : ℕ
  depth : ℕ
  val : ℕ → ℕ → ℕ → ℚ

/-- Two tensor values are equal as tensors when their shapes agree and
their entries agree at every in-shape index. -/
def TVal.EqOn (v w : TVal) : Prop :=
  v.rows = w.rows ∧ v.cols = w.cols ∧ v.depth = w.depth ∧
    ∀ i < v.rows, ∀ j < v.cols, ∀ k < v.depth, v.val i j k = w.val i j k

/-- Reading a view: the slice `A[:, idx_low : idx_high+1]` of a global
array `A` of an owner, with the view's shape. -/
def readView (A : GArr) (o : Owner) (ns : NodeRange) : TVal :=
  ⟨o.n_cells, nsLen ns, o.dim, fun i j k => A i (ns.idx_low + j) k⟩

/-- Writing a view: `A[:, idx_low : idx_high+1] = v` after the shape
assert. Returns the updated array, or `none` when the assert
`v.shape == view.shape` fails (in which case the owner is unchanged). -/
def writeView (A : GArr) (o : Owner) (ns : NodeRange) (v : TVal) :
    Option GArr :=
  if v.rows = o.n_cells ∧ v.cols = nsLen ns ∧ v.depth = o.dim then
    some (fun i j k =>
      if ns.idx_low ≤ j ∧ j ≤ ns.idx_high then v.val i (j - ns.idx_low) k
      else A i j k)
  else none

/-- `NodeSet.state` (getter). -/
def NodeSet.read_state (o : Owner) (ns : NodeRange) : TVal :=
  readView o.state o ns

/-- `NodeSet.state` (setter): writes through to `owner.state`. -/
def NodeSet.write_state (o : Owner) (ns : NodeRange) (v : TVal) :
    Option Owner :=
  (writeView o.state o ns v).map (fun A => { o with state := A })

/-- `NodeSet.decay_rate` (getter). -/
def NodeSet.read_decay_rate (o : Owner) (ns : NodeRange) : TVal :=
  readView o.decay_rates o ns

/-- `NodeSet.decay_rate` (setter): writes through to `owner.decay_rates`. -/
def NodeSet.write_decay_rate (o : Owner) (ns : NodeRange) (v : TVal) :
    Option Owner :=
  (writeView o.decay_rates o ns v).map (fun A => { o with decay_rates := A })

/-- `NodeSet.production_rate` (getter). -/
def NodeSet.read_production_rate (o : Owner) (ns : NodeRange) : TVal :=
  readView o.production_rates o ns

/-- `NodeSet.production_rate` (setter): writes through to
`owner.production_rates`. -/
def NodeSet.write_production_rate (o : Owner) (ns : NodeRange) (v : TVal) :
    Option Owner :=
  (writeView o.production_rates o ns v).map
    (fun A => { o with production_rates := A })

/-! ## EdgeSet (`flecs/sets.py`, class `EdgeSet`)

`EdgeSet` extends `torch.nn.Module`; plain (non-`Parameter`) tensors
assigned to it are stored in the instance `__dict__`. The reserved
`(n_edges, 2)` long tensor `self.edges` therefore sits in `__dict__`
alongside the named attribute tensors, and `Set.element_level_attr_dict`
— which filters the whole `__dict__` by `is_element_level_attr` (tensor,
`len(v.shape) > 1`, `v.shape[1] == len(self)`) — classifies the edges
tensor itself as an element-level attribute exactly when `n_edges == 2`
(its `shape[1]` is `2`).

A `__dict__` tensor value is modelled by `DVal`: a rank-1 float tensor
(`oneD`), a rank-≥2 float tensor (`nD`: a list of batch rows over the
edge axis whose entries have type `α`, the slice along the trailing
axes, so trailing shapes are equal by typing), or a rank-2 long tensor
(`int2`) such as the edges tensor. An `int2` carries its column count
`shape[1]` explicitly, because a bare list of rows would lose the column
count of a zero-row tensor such as the default `torch.zeros((0, 2))`. -/

inductive DVal (α : Type) where
  | oneD : List α → DVal α
  | nD : List (List α) → DVal α
  | int2 : ℕ → List (List ℤ) → DVal α
deriving DecidableEq, Repr

/-- `v.shape[0]`. -/
def DVal.dim0 {α : Type} : DVal α → ℕ
  | .oneD _ => 1
  | .nD xss => xss.length
  | .int2 _ rss => rss.length

/-- `v.shape[1]` of a rank-≥2 value (for an `nD` value the length of its
first batch row); `0` for a rank-1 value, whose shape has no second
entry. -/
def DVal.dim1 {α : Type} : DVal α → ℕ
  | .oneD _ => 0
  | .nD xss => ((xss.head?).map List.length).getD 0
  | .int2 w _ => w

/-- The batch rows of a float tensor value (row-level statements are
only made about float attributes). -/
def DVal.rows {α : Type} : DVal α → List (List α)
  | .oneD xs => [xs]
  | .nD xss => xss
  | .int2 _ _ => []

/-- Whether the value is a long (integer) tensor. -/
def DVal.isInt {α : Type} : DVal α → Bool
  | .int2 _ _ => true
  | _ => false

/-- The promotion `v = v[None, :]` applied to rank-1 values (a leading
batch axis of size 1 is inserted); other values are unchanged. -/
def DVal.promote {α : Type} : DVal α → DVal α
  | .oneD xs => .nD [xs]
  | v => v

/-- `Set.is_element_level_attr`: a tensor with `len(v.shape) > 1` and
`v.shape[1] == len(self)`. The `(n_edges, 2)` edges tensor satisfies it
exactly when `n_edges == 2`. -/
def isElementLevel {α : Type} (n : ℕ) : DVal α → Bool
  | .oneD _ => false
  | .nD xss => (((xss.head?).map List.length).getD 0) == n
  | .int2 w _ => w == n

/-- `torch.cat((a, b), dim=1)` on two rank-≥2 values of the same kind
and equal batch dimension (callers check `dim0` equality first; a
mixed-dtype concatenation, whose torch behaviour is version dependent,
is outside the model and left as the first argument — the theorems
assume attribute dicts match the stored dtypes). -/
def catDim1D {α : Type} : DVal α → DVal α → DVal α
  | .nD xss, .nD yss => .nD (List.zipWith (fun r s => r ++ s) xss yss)
  | .int2 w rss, .int2 w2 sss =>
      .int2 (w + w2) (List.zipWith (fun r s => r ++ s) rss sss)
  | a, _ => a

/-- Boolean-mask tensor indexing `t[mask]` along a list. -/
def maskSel {β : Type} (mask : List Bool) (l : List β) : List β :=
  (l.zip mask).filterMap (fun p => if p.2 then some p.1 else none)

/-- The column count of `t[:, mask]` for a tensor of column count `w`. -/
def selWidth (mask : List Bool) (w : ℕ) : ℕ :=
  (maskSel mask (List.range w)).length

/-- Columnwise boolean-mask indexing `t[:, mask]` on a rank-≥2 value. -/
def selColsD {α : Type} (mask : List Bool) : DVal α → DVal α
  | .oneD xs => .oneD xs
  | .nD xss => .nD (xss.map (maskSel mask))
  | .int2 w rss => .int2 (selWidth mask w) (rss.map (maskSel mask))

/-- The `EdgeSet` data: the stored edges tensor (its column count
`ecols` — `2` on construction, mutable because the `n_edges == 2`
misclassification lets `add_edges`/`remove_edges` reshape it — and its
rows) together with the other tensor-valued attributes of the instance
`__dict__`. The source keeps everything in `__dict__` under names,
`"edges"` being the reserved name of the edge tensor; assigning an
attribute named `"edges"` would overwrite the edge tensor itself, so
attribute names are distinct from `"edges"` in every object the source
constructs, and the theorems assume as much. -/
structure EdgeSetM (α : Type) where
  ecols : ℕ
  edges : List (List ℤ)
  attrs : List (String × DVal α)
deriving DecidableEq, Repr

/-- The tensor-valued entries of the instance `__dict__`, in assignment
order: the reserved `edges` entry first (assigned first in `__init__`),
then the named attributes. -/
def dictEntries {α : Type} (es : EdgeSetM α) : List (String × DVal α) :=
  ("edges", DVal.int2 es.ecols es.edges) :: es.attrs

/-- `Set.element_level_attr_dict`: all `__dict__` tensor entries — the
edges tensor included — that are classified element-level for the
current number of edges. -/
def elementLevelAttrs {α : Type} (es : EdgeSetM α) :
    List (String × DVal α) :=
  (dictEntries es).filter (fun kv => isElementLevel es.edges.length kv.2)

/-- Equality of Python dict key sets. -/
def keySetEq (a b : List String) : Bool :=
  a.all (fun k => b.contains k) && b.all (fun k => a.contains k)

/-- `EdgeSet.add_edges(edges, attribute_dict)`. `newE` is the caller's
new-edge tensor as (column count, rows). The source's `assert`s — the
attribute-dict key set must equal the element-level attribute key set,
and every (promoted) value must have edge-axis length `len(edges)` — are
the first two checks; the third is `torch.cat`'s dim-1 requirement that
the batch dimensions agree. The per-name loop then concatenates each
dict entry after the stored element-level entry of the same name along
the edge axis; a `setattr` on the reserved name `"edges"` — possible
exactly when the edges tensor was classified element-level, i.e.
`n_edges == 2` — extends the edge tensor itself along dim 1. Finally
`self.edges = torch.cat((self.edges, edges))` appends the new edge rows,
which requires the column counts to agree (the inner check); a failed
check is `none`. -/
def add_edges {α : Type} (es : EdgeSetM α) (newE : ℕ × List (List ℤ))
    (d : List (String × DVal α)) : Option (EdgeSetM α) :=
  let el := elementLevelAttrs es
  if keySetEq (d.map Prod.fst) (el.map Prod.fst)
      && d.all (fun kv => (DVal.promote kv.2).dim1 == newE.2.length)
      && d.all (fun kv =>
          match el.lookup kv.1 with
          | some v => (DVal.promote kv.2).dim0 == v.dim0
          | none => true) then
    let edgesLoop : ℕ × List (List ℤ) :=
      if (d.map Prod.fst).contains "edges" then
        match catDim1D
            ((el.lookup "edges").getD (DVal.int2 es.ecols es.edges))
            (DVal.promote ((d.lookup "edges").getD
              (DVal.int2 es.ecols es.edges))) with
        | .int2 w rss => (w, rss)
        | _ => (es.ecols, es.edges)
      else (es.ecols, es.edges)
    if edgesLoop.1 == newE.1 then
      some { ecols := edgesLoop.1,
             edges := edgesLoop.2 ++ newE.2,
             attrs := es.attrs.map (fun kv =>
               if isElementLevel es.edges.length kv.2
                   && (d.map Prod.fst).contains kv.1 then
                 (kv.1, catDim1D kv.2
                   (DVal.promote ((d.lookup kv.1).getD kv.2)))
               else kv) }
    else none
  else none

/-- `EdgeSet.remove_edges(indices)`: iterate over the (snapshot)
element-level attribute dict, column-filtering each entry to the
complement of the boolean mask — when `n_edges == 2` that loop includes
the edges tensor itself, column-filtering it — then row-filter
`self.edges`. Other attributes are untouched. -/
def remove_edges {α : Type} (es : EdgeSetM α) (mask : List Bool) :
    EdgeSetM α :=
  let kept := mask.map (fun b => !b)
  let edgesLoop : ℕ × List (List ℤ) :=
    if isElementLevel es.edges.length
        (DVal.int2 es.ecols es.edges : DVal α) then
      (selWidth kept es.ecols, es.edges.map (maskSel kept))
    else (es.ecols, es.edges)
  { ecols := edgesLoop.1,
    edges := maskSel kept edgesLoop.2,
    attrs := es.attrs.map (fun kv =>
      if isElementLevel es.edges.length kv.2 then (kv.1, selColsD kept kv.2)
      else kv) }

/-- `EdgeSet.get_edges(indices)`: non-mutating; the masked edge rows
(with their column count) together with the masked columns of every
element-level attribute — including, when `n_edges == 2`, the
misclassified edges tensor. -/
def get_edges {α : Type} (es : EdgeSetM α) (mask : List Bool) :
    (ℕ × List (List ℤ)) × List (String × DVal α) :=
  ((es.ecols, maskSel mask es.edges),
    (elementLevelAttrs es).map (fun kv => (kv.1, selColsD mask kv.2)))

/-! ## CellPopulation construction (`flecs/cell_population.py`) -/

/-- `int(min(idx))` on a (nonempty) list of global node ids. -/
def listMinNat : List ℕ → ℕ
  | [] => 0
  | x :: xs => xs.foldl min x

/-- `int(max(idx))` on a (nonempty) list of global node ids. -/
def listMaxNat : List ℕ → ℕ
  | [] => 0
  | x :: xs => xs.foldl max x

/-- `CellPopulation._get_node_set`: the index range of a node type is
`[min(idx), max(idx)]` over the type's global ids. -/
def _get_node_set (idx : List ℕ) : NodeRange :=
  ⟨listMinNat idx, listMaxNat idx⟩

/-- `CellPopulation.n_nodes`: the sum of `len(node_set)` over all
node sets. -/
def n_nodes (nodeSets : List NodeRange) : ℕ :=
  (nodeSets.map nsLen).sum

/-- The index-shift loop of `CellPopulation._get_edge_set`:
`edges[:, 0] -= src.idx_low; edges[:, 1] -= dst.idx_low`, performed
in place on the `(n_edges, 2)` long tensor of global endpoint ids. -/
def shiftEdges (srcLow dstLow : ℕ) (edges : List (ℤ × ℤ)) :
    List (ℤ × ℤ) :=
  edges.map (fun e => (e.1 - (srcLow : ℤ), e.2 - (dstLow : ℤ)))

/-- `CellPopulation._get_edge_set`, restricted to the `"idx"` entry: the
returned `EdgeSet`'s edge tensor and the caller's (mutated) `"idx"` tensor
are one and the same object, so both hold the shifted values. -/
def _get_edge_set_idx (srcIdx dstIdx : List ℕ) (edges : List (ℤ × ℤ)) :
    List (ℤ × ℤ) × List (ℤ × ℤ) :=
  let m := shiftEdges (listMinNat srcIdx) (listMinNat dstIdx) edges
  (m, m)

/-- The raw interaction-graph tables consumed by
`initialize_from_interaction_graph`, restricted to their reserved `"idx"`
entries: per node type the list of global node ids, per edge type triple
`(src, rel, dst)` the `(n_edges, 2)` tensor of global endpoint ids. -/
structure InteractionDataM where
  nodeTables : List (String × List ℕ)
  edgeTables : List ((String × String × String) × List (ℤ × ℤ))
deriving DecidableEq, Repr

/-- The `idx_low` of the node type named `ty` after the node sets have
been built (`self[ty].idx_low`). -/
def nodeLowOf (g : InteractionDataM) (ty : String) : ℕ :=
  listMinNat ((g.nodeTables.lookup ty).getD [])

/-- `CellPopulation.initialize_from_interaction_graph`, frame part: after
all node sets are built, `_get_edge_set` runs on every edge table; its
subtraction mutates each caller-supplied `"idx"` tensor in place, so the
post-construction graph data holds the shifted tables. -/
def initialize_from_interaction_graph (g : InteractionDataM) :
    InteractionDataM :=
  { g with
    edgeTables := g.edgeTables.map (fun kt =>
      (kt.1,
        (_get_edge_set_idx ((g.nodeTables.lookup kt.1.1).getD [])
          ((g.nodeTables.lookup kt.1.2.2).getD []) kt.2).2)) }

/-- The edge sets built by `initialize_from_interaction_graph`: for each
edge type, the first component returned by `_get_edge_set`. -/
def builtEdgeSets (g : InteractionDataM) :
    List ((String × String × String) × List (ℤ × ℤ)) :=
  g.edgeTables.map (fun kt =>
    (kt.1,
      (_get_edge_set_idx ((g.nodeTables.lookup kt.1.1).getD [])
        ((g.nodeTables.lookup kt.1.2.2).getD []) kt.2).1))

/-! ## `TestCellPop.compute_production_rates`
(`flecs/cell_population.py`, lines 305-313)

The population's typed structure, as far as production rates are
concerned: the node sets (index ranges into the global arrays, in
registration order) and the edge sets, each holding the indices of its
source and target node types together with its local edge list and
per-edge weights. -/

structure ETyp where
  src : ℕ
  tgt : ℕ
  edges : List (ℕ × ℕ)
  weights : List ℚ

structure Pop where
  nodeSets : List NodeRange
  edgeSets : List ETyp

/-- Zeroing one node set's production-rate view:
`self[n_type].production_rate = torch.zeros(...)`. -/
def zeroView (r : NodeRange) (A : GArr) : GArr :=
  fun i j k => if r.idx_low ≤ j ∧ j ≤ r.idx_high then 0 else A i j k

/-- `CellPopulation.set_production_rates_to_zero`: zero every node set's
production-rate view. -/
def set_production_rates_to_zero (p : Pop) (A : GArr) : GArr :=
  p.nodeSets.foldl (fun a r => zeroView r a) A

/-- `self[tgt_n_type].production_rate += contrib`: add a contribution
(indexed by `(cell, feature)` and local target node id) into the target
node set's production-rate view. -/
def addIntoView (r : NodeRange) (contrib : ℕ × ℕ → ℕ → ℚ) (A : GArr) :
    GArr :=
  fun i j k =>
    if r.idx_low ≤ j ∧ j ≤ r.idx_high then
      A i j k + contrib (i, k) (j - r.idx_low)
    else A i j k

/-- The source-state view `self[src_n_type].state` fed to `simple_conv`,
as a function of `(cell, feature)` and local source node id. -/
def srcStateView (r : NodeRange) (state : GArr) : ℕ × ℕ → ℕ → ℚ :=
  fun ik s => state ik.1 (r.idx_low + s) ik.2

/-- `TestCellPop.compute_production_rates`: zero all production-rate
views, then for every edge type scatter-add the `simple_conv` of the
source node set's state into the target node set's production-rate view.
Takes and returns the global `production_rates` array (in-place mutation
modelled by state passing); `state` is the global state array. -/
def compute_production_rates (p : Pop) (state prod : GArr) : GArr :=
  p.edgeSets.foldl
    (fun A et =>
      addIntoView (p.nodeSets.getD et.tgt default)
        (simple_conv et.edges et.weights
          (srcStateView (p.nodeSets.getD et.src default) state))
        A)
    (set_production_rates_to_zero p prod)

/-! ## Graph data source contract for the partition invariant

Modelled from the spec: the graph data source (`flecs.data`, not among
the sources under study) supplies, per node type, the list of that type's
global node ids. The spec's partition invariant ("the union of all
NodeSet ranges exactly partitions `[0, n_nodes)` with no gaps or
overlaps") requires each type's id set to be a nonempty contiguous block
and the types' id sets to partition `[0, N)`. -/
def GraphSourcePartitionOK (idLists : List (List ℕ)) (N : ℕ) : Prop :=
  (∀ l ∈ idLists, l ≠ []) ∧
  (∀ l ∈ idLists, ∀ x < listMaxNat l + 1, listMinNat l ≤ x → x ∈ l) ∧
  ((idLists.map List.toFinset).foldr (fun s t => s ∪ t) ∅ =
    Finset.range N) ∧
  List.Pairwise (fun a b => ∀ x, x ∈ a → x ∉ b) idLists

/-- The contract of one `NodeSet` view (C5), for a given owner array
projection `proj`, getter `rd` and setter `wr`: for every owner, node set
(with its inclusive range well-formed, as construction guarantees) and
assigned value — reading returns the slice of the owner's array over
columns `idx_low .. idx_high` with the view's shape; writing a value of
exactly the view's shape succeeds and reading back yields that value;
writing a value of any other shape fails (`none`), leaving the owner
unchanged. -/
def ViewOK (proj : Owner → GArr) (rd : Owner → NodeRange → TVal)
    (wr : Owner → NodeRange → TVal → Option Owner) : Prop :=
  ∀ (o : Owner) (ns : NodeRange) (v : TVal),
    ns.idx_low ≤ ns.idx_high →
    ((rd o ns).rows = o.n_cells ∧ (rd o ns).cols = nsLen ns ∧
        (rd o ns).depth = o.dim ∧
        (∀ i j k, (rd o ns).val i j k = proj o i (ns.idx_low + j) k))
    ∧ ((v.rows = o.n_cells ∧ v.cols = nsLen ns ∧ v.depth = o.dim) →
        ∃ o2, wr o ns v = some o2 ∧ TVal.EqOn (rd o2 ns) v)
    ∧ (¬(v.rows = o.n_cells ∧ v.cols = nsLen ns ∧ v.depth = o.dim) →
        wr o ns v = none)

/-- A node-axis index is covered by some node set's range. -/
def coveredIn (rs : List NodeRange) (j : ℕ) : Prop :=
  ∃ r ∈ rs, r.idx_low ≤ j ∧ j ≤ r.idx_high

/-- The contribution of one edge type to the production-rate entry
`(i, j, k)`: the `simple_conv` output at the local target id when `j`
lies in the target node set's range, `0` otherwise. -/
def etContrib (p : Pop) (state : GArr) (et : ETyp) (i j k : ℕ) : ℚ :=
  if (p.nodeSets.getD et.tgt default).idx_low ≤ j ∧
      j ≤ (p.nodeSets.getD et.tgt default).idx_high then
    simple_conv et.edges et.weights
      (srcStateView (p.nodeSets.getD et.src default) state) (i, k)
      (j - (p.nodeSets.getD et.tgt default).idx_low)
  else 0

instance (rs : List NodeRange) (j : ℕ) : Decidable (coveredIn rs j) := by
  unfold coveredIn
  infer_instance

/-! # Theorems -/

/-- The scatter-add fold, read off at one output position: whatever the
running output holds, the fold adds the sum of the contributions of the
weighted edges whose head is that position. -/
lemma scatter_foldl {ι : Type} (x : ι → ℕ → ℚ) :
    ∀ (l : List ((ℕ × ℕ) × ℚ)) (out : ι → ℕ → ℚ) (i : ι) (t : ℕ),
      (l.foldl (scatterStep x) out) i t
        = out i t +
          ((l.filter (fun ew => ew.1.2 == t)).map
            (fun ew => ew.2 * x i ew.1.1)).sum := by
  intro l
  induction l with
  | nil => intro out i t; simp
  | cons ew l ih =>
    intro out i t
    rw [List.foldl_cons, ih, List.filter_cons]
    by_cases h : ew.1.2 = t
    · have hb : (ew.1.2 == t) = true := beq_iff_eq.mpr h
      simp only [hb, if_pos, List.map_cons, List.sum_cons, scatterStep]
      rw [if_pos h.symm]
      ring
    · have hb : (ew.1.2 == t) = false := beq_eq_false_iff_ne.mpr h
      simp only [hb, Bool.false_eq_true, if_false, scatterStep]
      rw [if_neg (fun hc : t = ew.1.2 => h hc.symm)]

/-- C1: for every source state tensor, local edge list and per-edge
weight list, the aggregator's output at each target node `t` (and each
cell/feature index `i`) is the sum over the edges `e = (s, t)` of
`w_e * x[:, s, :]`; targets with no incoming edge receive `0`; with zero
edges the output is all-zero (of the correct target shape: it vanishes at
every node id, in particular beyond any target-node count bounding the
edge heads); and on the 2-node, 1-edge graph with edge `(0 → 1)`, weight
`2` and constant source state `3`, the output is `6` at node `1` and `0`
at node `0`. -/
theorem simple_conv_correct {ι : Type} (edges : List (ℕ × ℕ)) (ws : List ℚ)
    (x : ι → ℕ → ℚ) (i : ι) (t : ℕ) :
    simple_conv edges ws x i t =
      (((edges.zip ws).filter (fun ew => ew.1.2 == t)).map
        (fun ew => ew.2 * x i ew.1.1)).sum
    ∧ ((∀ e ∈ edges, e.2 ≠ t) → simple_conv edges ws x i t = 0)
    ∧ simple_conv ([] : List (ℕ × ℕ)) ws x i t = 0
    ∧ (∀ nTgt : ℕ, (∀ e ∈ edges, e.2 < nTgt) → nTgt ≤ t →
        simple_conv edges ws x i t = 0)
    ∧ simple_conv [(0, 1)] [(2 : ℚ)] (fun (_ : ι) (_ : ℕ) => (3 : ℚ)) i 1 = 6
    ∧ simple_conv [(0, 1)] [(2 : ℚ)] (fun (_ : ι) (_ : ℕ) => (3 : ℚ)) i 0
        = 0 := by
  have hmain : ∀ (es : List (ℕ × ℕ)) (w : List ℚ) (y : ι → ℕ → ℚ) (u : ℕ),
      simple_conv es w y i u =
        (((es.zip w).filter (fun ew => ew.1.2 == u)).map
          (fun ew => ew.2 * y i ew.1.1)).sum := by
    intro es w y u
    unfold simple_conv
    rw [scatter_foldl]
    simp
  have hzero : ∀ (es : List (ℕ × ℕ)) (w : List ℚ) (u : ℕ),
      (∀ e ∈ es, e.2 ≠ u) → simple_conv es w x i u = 0 := by
    intro es w u h
    rw [hmain]
    have hf : (es.zip w).filter (fun ew => ew.1.2 == u) = [] := by
      rw [List.filter_eq_nil_iff]
      intro ew hew
      have hmem : ew.1 ∈ es := (List.of_mem_zip hew).1
      simpa using h ew.1 hmem
    rw [hf]
    simp
  refine ⟨hmain edges ws x t, hzero edges ws t, ?_, ?_, ?_, ?_⟩
  · rw [hmain]; simp
  · intro nTgt hb ht
    exact hzero edges ws t (fun e he =>
      Nat.ne_of_lt (Nat.lt_of_lt_of_le (hb e he) ht))
  · rw [hmain]; norm_num
  · rw [hmain]; simp

/-- Witness for C1 at concrete inputs: a target with no incoming edge
gets `0` (node `5`, beyond the target count `2`), and the concrete
2-node, 1-edge example evaluates to `6` at node `1`. -/
theorem simple_conv_correct_witness :
    simple_conv [(0, 1)] [(2 : ℚ)] (fun (_ : Unit) (_ : ℕ) => (3 : ℚ)) () 5
        = 0
    ∧ simple_conv [(0, 1)] [(2 : ℚ)] (fun (_ : Unit) (_ : ℕ) => (3 : ℚ)) () 1
        = 6 := by
  refine ⟨?_, ?_⟩
  · exact (simple_conv_correct [(0, 1)] [(2 : ℚ)]
      (fun (_ : Unit) (_ : ℕ) => (3 : ℚ)) () 5).2.2.2.1 2 (by decide)
      (by decide)
  · exact (simple_conv_correct [(0, 1)] [(2 : ℚ)]
      (fun (_ : Unit) (_ : ℕ) => (3 : ℚ)) () 1).2.2.2.2.1

lemma eulerFrom_length (f : GArr → GArr) :
    ∀ (ts : List ℚ) (s : GArr) (tp : ℚ),
      (eulerFrom f s tp ts).length = ts.length := by
  intro ts
  induction ts with
  | nil => intro s tp; rfl
  | cons t ts2 ih => intro s tp; simp [eulerFrom, ih]

lemma euler_cons_step (f : GArr → GArr) :
    ∀ (ts : List ℚ) (s : GArr) (tp : ℚ) (n : ℕ),
      n + 1 < (tp :: ts).length →
      (s :: eulerFrom f s tp ts).getD (n + 1) zeroArr =
        (s :: eulerFrom f s tp ts).getD n zeroArr +
          ((tp :: ts).getD (n + 1) 0 - (tp :: ts).getD n 0) •
            f ((s :: eulerFrom f s tp ts).getD n zeroArr) := by
  intro ts
  induction ts with
  | nil =>
    intro s tp n h
    exact absurd h (by simp)
  | cons t ts2 ih =>
    intro s tp n h
    cases n with
    | zero => simp [eulerFrom]
    | succ m =>
      have h2 : m + 1 < (t :: ts2).length := by
        simpa using Nat.lt_of_succ_lt_succ h
      have := ih (s + (t - tp) • f s) t m h2
      simpa [eulerFrom, List.getD_cons_succ] using this

/-- C2 (amended: nonempty time grid): the fixed-step Euler integrator
records the initial state first, returns one recorded state per grid
point, and each consecutive pair of recorded states satisfies
`state ← state + tau * get_derivatives(state)` with
`tau = t[n+1] - t[n]`; when the derivative function is a constant `r`,
each step changes the state by exactly `tau • r`. -/
theorem euler_steps_correct (f : GArr → GArr) (s0 : GArr) (tr : List ℚ)
    (hne : tr ≠ []) (hmono : List.Chain' (fun a b : ℚ => a < b) tr) :
    (simulate_deterministic_trajectory_euler_steps f s0 tr).length
        = tr.length
    ∧ (simulate_deterministic_trajectory_euler_steps f s0 tr).getD 0 zeroArr
        = s0
    ∧ (∀ n, n + 1 < tr.length →
        (simulate_deterministic_trajectory_euler_steps f s0 tr).getD (n + 1)
            zeroArr
          = (simulate_deterministic_trajectory_euler_steps f s0 tr).getD n
              zeroArr
            + (tr.getD (n + 1) 0 - tr.getD n 0) •
              f ((simulate_deterministic_trajectory_euler_steps f s0 tr).getD
                n zeroArr))
    ∧ (∀ r : GArr, (∀ s, f s = r) → ∀ n, n + 1 < tr.length →
        (simulate_deterministic_trajectory_euler_steps f s0 tr).getD (n + 1)
            zeroArr
          - (simulate_deterministic_trajectory_euler_steps f s0 tr).getD n
              zeroArr
          = (tr.getD (n + 1) 0 - tr.getD n 0) • r) := by
  cases tr with
  | nil => exact absurd rfl hne
  | cons t0 ts =>
    have hstep : ∀ n, n + 1 < (t0 :: ts).length →
        (simulate_deterministic_trajectory_euler_steps f s0 (t0 :: ts)).getD
            (n + 1) zeroArr
          = (simulate_deterministic_trajectory_euler_steps f s0
              (t0 :: ts)).getD n zeroArr
            + ((t0 :: ts).getD (n + 1) 0 - (t0 :: ts).getD n 0) •
              f ((simulate_deterministic_trajectory_euler_steps f s0
                (t0 :: ts)).getD n zeroArr) := by
      intro n h
      exact euler_cons_step f ts s0 t0 n h
    refine ⟨?_, ?_, hstep, ?_⟩
    · simp [simulate_deterministic_trajectory_euler_steps,
        eulerFrom_length]
    · rfl
    · intro r hr n h
      rw [hstep n h, hr]
      exact add_sub_cancel_left _ _

/-- Counterexample to C2 as stated: the empty time grid is (vacuously)
strictly increasing, yet the integrator returns a length-1 trajectory
(the recorded initial state), not a length-0 one as the claimed shape
`(len(time_range), ...)` requires. -/
theorem euler_steps_empty_grid_counterexample :
    List.Chain' (fun a b : ℚ => a < b) ([] : List ℚ)
    ∧ (simulate_deterministic_trajectory_euler_steps (fun s => s) zeroArr
        []).length ≠ ([] : List ℚ).length := by
  constructor
  · simp
  · simp [simulate_deterministic_trajectory_euler_steps]

/-- Witness for C2 on the grid `[0, 1]` with constant derivative `2`:
two recorded states, and the single step changes the state by
`(1 - 0) • 2`. -/
theorem euler_steps_correct_witness :
    (simulate_deterministic_trajectory_euler_steps
        (fun _ => (fun _ _ _ => (2 : ℚ))) zeroArr [0, 1]).length = 2
    ∧ (simulate_deterministic_trajectory_euler_steps
          (fun _ => (fun _ _ _ => (2 : ℚ))) zeroArr [0, 1]).getD 1 zeroArr
        - (simulate_deterministic_trajectory_euler_steps
            (fun _ => (fun _ _ _ => (2 : ℚ))) zeroArr [0, 1]).getD 0 zeroArr
        = (((1 : ℚ) - 0) • (fun _ _ _ => (2 : ℚ)) : GArr) := by
  have h := euler_steps_correct (fun _ => (fun _ _ _ => (2 : ℚ))) zeroArr
    [0, 1] (by decide)
    (List.chain'_cons.mpr ⟨zero_lt_one, List.chain'_singleton 1⟩)
  exact ⟨h.1, h.2.2.2 (fun _ _ _ => (2 : ℚ)) (fun _ => rfl) 0 (by decide)⟩

lemma stochSteps_length :
    ∀ (ds : List (GArr × GArr)) (s : GArr),
      (stochSteps s ds).length = ds.length := by
  intro ds
  induction ds with
  | nil => intro s; rfl
  | cons d ds2 ih => intro s; simp [stochSteps, ih]

lemma stochSteps_nonneg :
    ∀ (ds : List (GArr × GArr)) (s : GArr),
      ∀ x ∈ stochSteps s ds, ∀ i j k, 0 ≤ x i j k := by
  intro ds
  induction ds with
  | nil => intro s x hx; exact absurd hx (by simp [stochSteps])
  | cons d ds2 ih =>
    intro s x hx i j k
    rcases List.mem_cons.mp hx with h | h
    · rw [h]
      exact le_max_right _ _
    · exact ih (tauStep s d.1 d.2) x h i j k

lemma stoch_cons_step :
    ∀ (ds : List (GArr × GArr)) (s : GArr) (n : ℕ), n + 1 < ds.length + 1 →
      (s :: stochSteps s ds).getD (n + 1) zeroArr =
        tauStep ((s :: stochSteps s ds).getD n zeroArr)
          (ds.getD n (zeroArr, zeroArr)).1
          (ds.getD n (zeroArr, zeroArr)).2 := by
  intro ds
  induction ds with
  | nil =>
    intro s n h
    exact absurd h (by simp)
  | cons d ds2 ih =>
    intro s n h
    cases n with
    | zero => simp [stochSteps]
    | succ m =>
      have h2 : m + 1 < ds2.length + 1 := by
        simpa using Nat.lt_of_succ_lt_succ h
      have := ih (tauStep s d.1 d.2) m h2
      simpa [stochSteps, List.getD_cons_succ] using this

/-- C3 (amended: the non-negativity clamp covers every recorded point
after the initial one; the initial state itself is recorded unclamped, so
the all-points statement needs a non-negative initial state): the
tau-leaping integrator records the initial state, performs
`state ← max(state + ΔP - ΔD, 0)` per step (Poisson draws supplied by the
oracle list), and every state recorded after a step is elementwise
non-negative even when the decay draw exceeds the current state; when the
initial state is non-negative, every recorded point is non-negative. -/
theorem stochastic_trajectory_nonneg (s0 : GArr)
    (draws : List (GArr × GArr)) :
    (simulate_stochastic_trajectory s0 draws).length = draws.length + 1
    ∧ (simulate_stochastic_trajectory s0 draws).getD 0 zeroArr = s0
    ∧ (∀ n, n + 1 < draws.length + 1 →
        (simulate_stochastic_trajectory s0 draws).getD (n + 1) zeroArr =
          tauStep ((simulate_stochastic_trajectory s0 draws).getD n zeroArr)
            (draws.getD n (zeroArr, zeroArr)).1
            (draws.getD n (zeroArr, zeroArr)).2)
    ∧ (∀ x ∈ (simulate_stochastic_trajectory s0 draws).tail,
        ∀ i j k, 0 ≤ x i j k)
    ∧ ((∀ i j k, 0 ≤ s0 i j k) →
        ∀ x ∈ simulate_stochastic_trajectory s0 draws,
          ∀ i j k, 0 ≤ x i j k) := by
  refine ⟨?_, rfl, ?_, ?_, ?_⟩
  · simp [simulate_stochastic_trajectory, stochSteps_length]
  · intro n h
    exact stoch_cons_step draws s0 n h
  · intro x hx
    exact stochSteps_nonneg draws s0 x hx
  · intro h0 x hx i j k
    rcases List.mem_cons.mp hx with h | h
    · rw [h]; exact h0 i j k
    · exact stochSteps_nonneg draws s0 x h i j k

/-- Counterexample to C3 as stated: with a negative initial state the
first recorded point of the trajectory is that initial state, unclamped,
so `state >= 0` fails at a recorded point. -/
theorem stochastic_trajectory_nonneg_counterexample :
    (fun _ _ _ => (-1 : ℚ)) ∈
        simulate_stochastic_trajectory (fun _ _ _ => (-1 : ℚ)) []
    ∧ ¬ (0 : ℚ) ≤ (fun _ _ _ => (-1 : ℚ) : GArr) 0 0 0 := by
  constructor
  · simp [simulate_stochastic_trajectory, stochSteps]
  · norm_num

/-- Witness for C3: one step from the zero state with production draw `5`
and decay draw `9` (decay exceeding state); the recorded point after the
step is non-negative. -/
theorem stochastic_trajectory_nonneg_witness :
    (0 : ℚ) ≤ (simulate_stochastic_trajectory zeroArr
      [(fun _ _ _ => (5 : ℚ), fun _ _ _ => (9 : ℚ))]).getD 1 zeroArr
        0 0 0 := by
  have h := (stochastic_trajectory_nonneg zeroArr
    [(fun _ _ _ => (5 : ℚ), fun _ _ _ => (9 : ℚ))]).2.2.2.2
    (fun _ _ _ => le_refl 0)
  apply h
  simp [simulate_stochastic_trajectory, stochSteps, List.getD]

/-- C4: when `_get_edge_set` builds an `EdgeSet`, every global endpoint
pair has the source node type's `idx_low` subtracted from column 0 and
the destination node type's `idx_low` subtracted from column 1 (the
`idx_low`s being the minima of the types' global-id lists); in the
concrete instance of the claim, global endpoints `(12, 47)` with source
type spanning `[10, 20]` and destination spanning `[40, 50]` are stored
as local endpoints `(2, 7)`. -/
theorem edge_index_remap (srcIdx dstIdx : List ℕ) (edges : List (ℤ × ℤ))
    (n : ℕ) (h : n < edges.length) :
    (_get_edge_set_idx srcIdx dstIdx edges).1.getD n (0, 0)
        = ((edges.getD n (0, 0)).1 - ((_get_node_set srcIdx).idx_low : ℤ),
           (edges.getD n (0, 0)).2 - ((_get_node_set dstIdx).idx_low : ℤ))
    ∧ _get_edge_set_idx (List.range' 10 11) (List.range' 40 11) [(12, 47)]
        = ([(2, 7)], [(2, 7)]) := by
  constructor
  · simp [_get_edge_set_idx, shiftEdges, _get_node_set,
      List.getD_eq_getElem?_getD, List.getElem?_map,
      List.getElem?_eq_getElem h]
  · decide

/-- Witness for C4 at the claim's concrete instance. -/
theorem edge_index_remap_witness :
    (_get_edge_set_idx (List.range' 10 11) (List.range' 40 11)
        [(12, 47)]).1.getD 0 (0, 0)
      = (([((12 : ℤ), (47 : ℤ))].getD 0 (0, 0)).1
          - ((_get_node_set (List.range' 10 11)).idx_low : ℤ),
         ([((12 : ℤ), (47 : ℤ))].getD 0 (0, 0)).2
          - ((_get_node_set (List.range' 40 11)).idx_low : ℤ)) :=
  (edge_index_remap (List.range' 10 11) (List.range' 40 11) [(12, 47)] 0
    (by decide)).1

lemma viewOK_generic (proj : Owner → GArr) (upd : Owner → GArr → Owner)
    (hproj : ∀ o A, proj (upd o A) = A)
    (hcells : ∀ o A, (upd o A).n_cells = o.n_cells)
    (hdim : ∀ o A, (upd o A).dim = o.dim) :
    ViewOK proj (fun o ns => readView (proj o) o ns)
      (fun o ns v => (writeView (proj o) o ns v).map (upd o)) := by
  intro o ns v hlh
  refine ⟨⟨rfl, rfl, rfl, fun i j k => rfl⟩, ?_, ?_⟩
  · intro hsh
    obtain ⟨h1, h2, h3⟩ := hsh
    refine ⟨upd o (fun i j k =>
        if ns.idx_low ≤ j ∧ j ≤ ns.idx_high then v.val i (j - ns.idx_low) k
        else proj o i j k), ?_, ?_⟩
    · show Option.map (upd o) (writeView (proj o) o ns v) = _
      unfold writeView
      rw [if_pos ⟨h1, h2, h3⟩]
      rfl
    · simp only [TVal.EqOn, readView]
      refine ⟨?_, ?_, ?_, ?_⟩
      · rw [hcells, h1]
      · rw [h2]
      · rw [hdim, h3]
      · intro i hi j hj k hk
        have hjlen : j < nsLen ns := hj
        have hjh : ns.idx_low + j ≤ ns.idx_high := by
          unfold nsLen at hjlen
          omega
        simp only [hproj]
        rw [if_pos ⟨Nat.le_add_right _ _, hjh⟩]
        have hsub : ns.idx_low + j - ns.idx_low = j := by omega
        rw [hsub]
  · intro hns
    show Option.map (upd o) (writeView (proj o) o ns v) = none
    unfold writeView
    rw [if_neg hns]
    rfl

/-- C5: the three `NodeSet` views `state`, `decay_rate` and
`production_rate` each satisfy the view contract `ViewOK`: reading
returns the slice of the owner's corresponding array over columns
`idx_low .. idx_high` inclusive; writing a value whose shape exactly
equals the view's shape writes through so that reading back yields the
value; writing any other shape fails with a shape mismatch, leaving the
owner's array unchanged. -/
theorem nodeset_views_correct :
    ViewOK Owner.state NodeSet.read_state NodeSet.write_state
    ∧ ViewOK Owner.decay_rates NodeSet.read_decay_rate
        NodeSet.write_decay_rate
    ∧ ViewOK Owner.production_rates NodeSet.read_production_rate
        NodeSet.write_production_rate :=
  ⟨viewOK_generic Owner.state (fun o A => { o with state := A })
      (fun _ _ => rfl) (fun _ _ => rfl) (fun _ _ => rfl),
    viewOK_generic Owner.decay_rates (fun o A => { o with decay_rates := A })
      (fun _ _ => rfl) (fun _ _ => rfl) (fun _ _ => rfl),
    viewOK_generic Owner.production_rates
      (fun o A => { o with production_rates := A })
      (fun _ _ => rfl) (fun _ _ => rfl) (fun _ _ => rfl)⟩

/-- Witness for C5 on a concrete owner (1 cell, 2 nodes, 1 feature) and
the node set `[0, 0]`: writing the matching-shape constant-7 value
succeeds and reads back; writing a wrong-shape value returns `none`. -/
theorem nodeset_views_correct_witness :
    (∃ o2, NodeSet.write_state
        ⟨1, 2, 1, zeroArr, zeroArr, zeroArr⟩ ⟨0, 0⟩
        ⟨1, 1, 1, fun _ _ _ => 7⟩ = some o2
      ∧ TVal.EqOn (NodeSet.read_state o2 ⟨0, 0⟩)
          ⟨1, 1, 1, fun _ _ _ => 7⟩)
    ∧ NodeSet.write_state ⟨1, 2, 1, zeroArr, zeroArr, zeroArr⟩ ⟨0, 0⟩
        ⟨2, 1, 1, fun _ _ _ => 7⟩ = none := by
  have h1 := nodeset_views_correct.1
    ⟨1, 2, 1, zeroArr, zeroArr, zeroArr⟩ ⟨0, 0⟩
    ⟨1, 1, 1, fun _ _ _ => 7⟩ (by decide)
  have h2 := nodeset_views_correct.1
    ⟨1, 2, 1, zeroArr, zeroArr, zeroArr⟩ ⟨0, 0⟩
    ⟨2, 1, 1, fun _ _ _ => 7⟩ (by decide)
  exact ⟨h1.2.1 ⟨rfl, by decide, rfl⟩, h2.2.2 (by decide)⟩

lemma zero_views_char (rs : List NodeRange) :
    ∀ (A : GArr) (i j k : ℕ),
      (rs.foldl (fun a r => zeroView r a) A) i j k
        = if coveredIn rs j then 0 else A i j k := by
  induction rs with
  | nil =>
    intro A i j k
    have : ¬ coveredIn [] j := by simp [coveredIn]
    simp [this]
  | cons r rs ih =>
    intro A i j k
    rw [List.foldl_cons, ih]
    by_cases hrs : coveredIn rs j
    · have hc : coveredIn (r :: rs) j := by
        obtain ⟨r2, hr2, hb⟩ := hrs
        exact ⟨r2, List.mem_cons_of_mem _ hr2, hb⟩
      simp [hrs, hc]
    · by_cases hr : r.idx_low ≤ j ∧ j ≤ r.idx_high
      · have hc : coveredIn (r :: rs) j := ⟨r, List.mem_cons_self _ _, hr⟩
        simp [hrs, hc, zeroView, hr]
      · have hc : ¬ coveredIn (r :: rs) j := by
          intro hcon
          obtain ⟨r2, hr2, hb⟩ := hcon
          rcases List.mem_cons.mp hr2 with h | h
          · exact hr (h ▸ hb)
          · exact hrs ⟨r2, h, hb⟩
        simp [hrs, hc, zeroView, hr]

lemma accum_char (p : Pop) (state : GArr) :
    ∀ (ets : List ETyp) (A : GArr) (i j k : ℕ),
      (ets.foldl
        (fun A et =>
          addIntoView (p.nodeSets.getD et.tgt default)
            (simple_conv et.edges et.weights
              (srcStateView (p.nodeSets.getD et.src default) state))
            A)
        A) i j k
      = A i j k + (ets.map (fun et => etContrib p state et i j k)).sum := by
  intro ets
  induction ets with
  | nil => intro A i j k; simp
  | cons et ets ih =>
    intro A i j k
    rw [List.foldl_cons, ih, List.map_cons, List.sum_cons]
    unfold addIntoView etContrib
    by_cases hr : (p.nodeSets.getD et.tgt default).idx_low ≤ j ∧
        j ≤ (p.nodeSets.getD et.tgt default).idx_high
    · rw [if_pos hr, if_pos hr]
      ring
    · rw [if_neg hr, if_neg hr]
      ring

lemma compute_production_rates_char (p : Pop) (state prod : GArr)
    (i j k : ℕ) :
    compute_production_rates p state prod i j k
      = (if coveredIn p.nodeSets j then 0 else prod i j k)
        + (p.edgeSets.map (fun et => etContrib p state et i j k)).sum := by
  unfold compute_production_rates set_production_rates_to_zero
  rw [accum_char, zero_views_char]

lemma etContrib_vanish (p : Pop) (state : GArr) (i j k : ℕ)
    (hT : ∀ et ∈ p.edgeSets, et.tgt < p.nodeSets.length)
    (hj : ¬ coveredIn p.nodeSets j) :
    (p.edgeSets.map (fun et => etContrib p state et i j k)).sum = 0 := by
  apply List.sum_eq_zero
  intro q hq
  obtain ⟨et, het, hqe⟩ := List.mem_map.mp hq
  subst hqe
  unfold etContrib
  rw [if_neg]
  intro hr
  apply hj
  refine ⟨p.nodeSets.getD et.tgt default, ?_, hr⟩
  rw [List.getD_eq_getElem _ _ (hT et het)]
  exact List.getElem_mem _

/-- C6: with the state unchanged, running
`TestCellPop.compute_production_rates` twice in a row yields the same
production-rate array as running it once — the initial
`set_production_rates_to_zero` zeroes every node set's view before the
per-edge-type contributions are summed, so nothing accumulates across
calls. The hypothesis (every edge type's target is a registered node
set) is guaranteed by construction. -/
theorem compute_production_rates_idempotent (p : Pop) (state prod : GArr)
    (hT : ∀ et ∈ p.edgeSets, et.tgt < p.nodeSets.length) :
    compute_production_rates p state (compute_production_rates p state prod)
      = compute_production_rates p state prod := by
  funext i j k
  rw [compute_production_rates_char, compute_production_rates_char]
  by_cases hc : coveredIn p.nodeSets j
  · simp [hc]
  · rw [if_neg hc, if_neg hc, etContrib_vanish p state i j k hT hc]
    simp

/-- Witness for C6 on a concrete two-node-type population with one edge
type. -/
theorem compute_production_rates_idempotent_witness :
    compute_production_rates ⟨[⟨0, 0⟩, ⟨1, 1⟩], [⟨0, 1, [(0, 0)], [2]⟩]⟩
        zeroArr
        (compute_production_rates ⟨[⟨0, 0⟩, ⟨1, 1⟩], [⟨0, 1, [(0, 0)], [2]⟩]⟩
          zeroArr zeroArr)
      = compute_production_rates ⟨[⟨0, 0⟩, ⟨1, 1⟩], [⟨0, 1, [(0, 0)], [2]⟩]⟩
          zeroArr zeroArr :=
  compute_production_rates_idempotent _ zeroArr zeroArr (by decide)

/-- C10: `initialize_from_interaction_graph` mutates the caller's edge
tables in place: afterwards each edge type's `(n_edges, 2)` `"idx"`
tensor holds its original pairs with the source type's `idx_low`
subtracted from column 0 and the destination type's `idx_low` subtracted
from column 1 — the very list the built `EdgeSet` aliases — and on a
concrete graph (source ids `[10, 20]`, destination ids `[40, 50]`, one
edge `(12, 47)`) the post-construction data differs from the input: the
table now reads `(2, 7)`, no longer global ids. -/
theorem initialize_mutates_caller_edge_tables (g : InteractionDataM)
    (n : ℕ) (h : n < g.edgeTables.length) :
    ((initialize_from_interaction_graph g).edgeTables.length
        = g.edgeTables.length)
    ∧ ((initialize_from_interaction_graph g).edgeTables.getD n
          (("", "", ""), [])
        = ((g.edgeTables.getD n (("", "", ""), [])).1,
           shiftEdges
             (nodeLowOf g (g.edgeTables.getD n (("", "", ""), [])).1.1)
             (nodeLowOf g (g.edgeTables.getD n (("", "", ""), [])).1.2.2)
             (g.edgeTables.getD n (("", "", ""), [])).2))
    ∧ ((builtEdgeSets g).getD n (("", "", ""), [])
        = (initialize_from_interaction_graph g).edgeTables.getD n
            (("", "", ""), []))
    ∧ (initialize_from_interaction_graph
          ⟨[("a", List.range' 10 11), ("b", List.range' 40 11)],
            [(("a", "r", "b"), [(12, 47)])]⟩
        ≠ ⟨[("a", List.range' 10 11), ("b", List.range' 40 11)],
            [(("a", "r", "b"), [(12, 47)])]⟩)
    ∧ (initialize_from_interaction_graph
          ⟨[("a", List.range' 10 11), ("b", List.range' 40 11)],
            [(("a", "r", "b"), [(12, 47)])]⟩).edgeTables
        = [(("a", "r", "b"), [(2, 7)])] := by
  refine ⟨?_, ?_, ?_, ?_, ?_⟩
  · simp [initialize_from_interaction_graph]
  · simp [initialize_from_interaction_graph, _get_edge_set_idx,
      nodeLowOf, List.getD_eq_getElem?_getD, List.getElem?_map,
      List.getElem?_eq_getElem h]
  · simp [initialize_from_interaction_graph, builtEdgeSets,
      _get_edge_set_idx, List.getD_eq_getElem?_getD, List.getElem?_map]
  · decide
  · decide

/-- Witness for C10 at the claim's concrete graph. -/
theorem initialize_mutates_caller_edge_tables_witness :
    (initialize_from_interaction_graph
        ⟨[("a", List.range' 10 11), ("b", List.range' 40 11)],
          [(("a", "r", "b"), [(12, 47)])]⟩).edgeTables.length
      = ([(("a", "r", "b"), [((12 : ℤ), (47 : ℤ))])] :
          List ((String × String × String) × List (ℤ × ℤ))).length :=
  (initialize_mutates_caller_edge_tables
    ⟨[("a", List.range' 10 11), ("b", List.range' 40 11)],
      [(("a", "r", "b"), [(12, 47)])]⟩ 0 (by decide)).1

lemma foldl_min_le_init : ∀ (xs : List ℕ) (a : ℕ), xs.foldl min a ≤ a := by
  intro xs
  induction xs with
  | nil => intro a; exact le_refl a
  | cons x xs ih =>
    intro a
    rw [List.foldl_cons]
    have h2 := ih (min a x)
    have h3 := Nat.min_le_left a x
    omega

lemma foldl_min_le_mem :
    ∀ (xs : List ℕ) (a x : ℕ), x ∈ xs → xs.foldl min a ≤ x := by
  intro xs
  induction xs with
  | nil => intro a x hx; exact absurd hx (List.not_mem_nil x)
  | cons y xs ih =>
    intro a x hx
    rcases List.mem_cons.mp hx with h | h
    · rw [List.foldl_cons, h]
      have h2 := foldl_min_le_init xs (min a y)
      have h3 := Nat.min_le_right a y
      omega
    · exact ih (min a y) x h

lemma foldl_min_mem :
    ∀ (xs : List ℕ) (a : ℕ), xs.foldl min a = a ∨ xs.foldl min a ∈ xs := by
  intro xs
  induction xs with
  | nil => intro a; exact Or.inl rfl
  | cons y xs ih =>
    intro a
    rcases ih (min a y) with h | h
    · rcases Nat.le_total a y with hay | hya
      · exact Or.inl (by rw [List.foldl_cons, h]; exact Nat.min_eq_left hay)
      · refine Or.inr ?_
        rw [List.foldl_cons, h, Nat.min_eq_right hya]
        exact List.mem_cons_self _ _
    · exact Or.inr (List.mem_cons_of_mem _ h)

lemma foldl_max_init_le : ∀ (xs : List ℕ) (a : ℕ), a ≤ xs.foldl max a := by
  intro xs
  induction xs with
  | nil => intro a; exact le_refl a
  | cons x xs ih =>
    intro a
    rw [List.foldl_cons]
    have h2 := ih (max a x)
    have h3 := Nat.le_max_left a x
    omega

lemma foldl_max_mem_le :
    ∀ (xs : List ℕ) (a x : ℕ), x ∈ xs → x ≤ xs.foldl max a := by
  intro xs
  induction xs with
  | nil => intro a x hx; exact absurd hx (List.not_mem_nil x)
  | cons y xs ih =>
    intro a x hx
    rcases List.mem_cons.mp hx with h | h
    · rw [List.foldl_cons, h]
      have h2 := foldl_max_init_le xs (max a y)
      have h3 := Nat.le_max_right a y
      omega
    · exact ih (max a y) x h

lemma foldl_max_mem :
    ∀ (xs : List ℕ) (a : ℕ), xs.foldl max a = a ∨ xs.foldl max a ∈ xs := by
  intro xs
  induction xs with
  | nil => intro a; exact Or.inl rfl
  | cons y xs ih =>
    intro a
    rcases ih (max a y) with h | h
    · rcases Nat.le_total a y with hay | hya
      · refine Or.inr ?_
        rw [List.foldl_cons, h, Nat.max_eq_right hay]
        exact List.mem_cons_self _ _
      · exact Or.inl (by rw [List.foldl_cons, h]; exact Nat.max_eq_left hya)
    · exact Or.inr (List.mem_cons_of_mem _ h)

lemma listMinNat_le (l : List ℕ) (x : ℕ) (hx : x ∈ l) : listMinNat l ≤ x := by
  cases l with
  | nil => exact absurd hx (List.not_mem_nil x)
  | cons y ys =>
    rcases List.mem_cons.mp hx with h | h
    · rw [h]
      exact foldl_min_le_init ys y
    · exact foldl_min_le_mem ys y x h

lemma le_listMaxNat (l : List ℕ) (x : ℕ) (hx : x ∈ l) : x ≤ listMaxNat l := by
  cases l with
  | nil => exact absurd hx (List.not_mem_nil x)
  | cons y ys =>
    rcases List.mem_cons.mp hx with h | h
    · rw [h]
      exact foldl_max_init_le ys y
    · exact foldl_max_mem_le ys y x h

lemma listMinNat_mem (l : List ℕ) (h : l ≠ []) : listMinNat l ∈ l := by
  cases l with
  | nil => exact absurd rfl h
  | cons y ys =>
    rcases foldl_min_mem ys y with h2 | h2
    · rw [listMinNat, h2]
      exact List.mem_cons_self _ _
    · exact List.mem_cons_of_mem _ h2

lemma listMaxNat_mem (l : List ℕ) (h : l ≠ []) : listMaxNat l ∈ l := by
  cases l with
  | nil => exact absurd rfl h
  | cons y ys =>
    rcases foldl_max_mem ys y with h2 | h2
    · rw [listMaxNat, h2]
      exact List.mem_cons_self _ _
    · exact List.mem_cons_of_mem _ h2

lemma toFinset_eq_Icc (l : List ℕ)
    (hcont : ∀ x < listMaxNat l + 1, listMinNat l ≤ x → x ∈ l) :
    l.toFinset = Finset.Icc (listMinNat l) (listMaxNat l) := by
  ext y
  rw [List.mem_toFinset, Finset.mem_Icc]
  constructor
  · intro hy
    exact ⟨listMinNat_le l y hy, le_listMaxNat l y hy⟩
  · intro hy
    exact hcont y (Nat.lt_succ_of_le hy.2) hy.1

lemma mem_foldr_union :
    ∀ (fs : List (Finset ℕ)) (x : ℕ),
      x ∈ fs.foldr (fun s t => s ∪ t) ∅ ↔ ∃ f ∈ fs, x ∈ f := by
  intro fs
  induction fs with
  | nil => intro x; simp
  | cons f fs ih =>
    intro x
    simp [List.foldr_cons, Finset.mem_union, ih]

lemma card_foldr_union :
    ∀ (fs : List (Finset ℕ)),
      List.Pairwise (fun a b => ∀ x, x ∈ a → x ∉ b) fs →
      (fs.foldr (fun s t => s ∪ t) ∅).card = (fs.map Finset.card).sum := by
  intro fs
  induction fs with
  | nil => intro hp; simp
  | cons f fs ih =>
    intro hp
    have hdisj : Disjoint f (fs.foldr (fun s t => s ∪ t) ∅) := by
      rw [Finset.disjoint_left]
      intro x hxf hxu
      obtain ⟨g, hg, hxg⟩ := (mem_foldr_union fs x).mp hxu
      exact (List.rel_of_pairwise_cons hp hg) x hxf hxg
    rw [List.foldr_cons, Finset.card_union_of_disjoint hdisj, List.map_cons,
      List.sum_cons, ih (List.Pairwise.sublist (List.sublist_cons_self f fs) hp)]

/-- C9: under the graph-source contract (each node type's global ids a
nonempty contiguous block, the types' id sets partitioning `[0, N)`), the
constructed `NodeSet` ranges exactly partition `[0, n_nodes)`: the sum of
`len(ns)` over all node sets equals `n_nodes = N`, no two ranges overlap,
every node id below `N` is covered (no gaps), and each node set's length
is `idx_high - idx_low + 1`. -/
theorem nodeset_partition (idLists : List (List ℕ)) (N : ℕ)
    (h : GraphSourcePartitionOK idLists N) :
    n_nodes (idLists.map _get_node_set) = N
    ∧ List.Pairwise
        (fun r1 r2 => ∀ j : ℕ, r1.idx_low ≤ j → j ≤ r1.idx_high →
          ¬(r2.idx_low ≤ j ∧ j ≤ r2.idx_high))
        (idLists.map _get_node_set)
    ∧ (∀ j < N, ∃ r ∈ idLists.map _get_node_set,
        r.idx_low ≤ j ∧ j ≤ r.idx_high)
    ∧ (∀ l ∈ idLists,
        nsLen (_get_node_set l) = listMaxNat l - listMinNat l + 1) := by
  obtain ⟨h1, h2, h3, h4⟩ := h
  have hIcc : ∀ l ∈ idLists,
      l.toFinset = Finset.Icc (listMinNat l) (listMaxNat l) :=
    fun l hl => toFinset_eq_Icc l (h2 l hl)
  have hminmax : ∀ l ∈ idLists, listMinNat l ≤ listMaxNat l := fun l hl =>
    le_listMaxNat l (listMinNat l) (listMinNat_mem l (h1 l hl))
  have hcard : ∀ l ∈ idLists, l.toFinset.card = nsLen (_get_node_set l) := by
    intro l hl
    rw [hIcc l hl, Nat.card_Icc]
    have := hminmax l hl
    simp only [nsLen, _get_node_set]
    omega
  refine ⟨?_, ?_, ?_, fun l _ => rfl⟩
  · have hsum := card_foldr_union (idLists.map List.toFinset)
      (by
        rw [List.pairwise_map]
        refine h4.imp_of_mem ?_
        intro a b ha hb hab x hxa hxb
        exact hab x (List.mem_toFinset.mp hxa) (List.mem_toFinset.mp hxb))
    rw [h3, Finset.card_range, List.map_map] at hsum
    unfold n_nodes
    rw [List.map_map]
    have hmaps : List.map (nsLen ∘ _get_node_set) idLists
        = List.map (Finset.card ∘ List.toFinset) idLists := by
      apply List.map_congr_left
      intro l hl
      exact (hcard l hl).symm
    rw [hmaps]
    exact hsum.symm
  · rw [List.pairwise_map]
    refine h4.imp_of_mem ?_
    intro a b ha hb hab j hj1 hj2 hj3
    have hja : j ∈ a := by
      have : j ∈ a.toFinset := by
        rw [hIcc a ha, Finset.mem_Icc]
        exact ⟨hj1, hj2⟩
      exact List.mem_toFinset.mp this
    have hjb : j ∈ b := by
      have : j ∈ b.toFinset := by
        rw [hIcc b hb, Finset.mem_Icc]
        exact ⟨hj3.1, hj3.2⟩
      exact List.mem_toFinset.mp this
    exact hab j hja hjb
  · intro j hj
    have : j ∈ (idLists.map List.toFinset).foldr (fun s t => s ∪ t) ∅ := by
      rw [h3, Finset.mem_range]
      exact hj
    obtain ⟨f, hf, hjf⟩ := (mem_foldr_union _ j).mp this
    obtain ⟨l, hl, hfl⟩ := List.mem_map.mp hf
    subst hfl
    have hjl : j ∈ l := List.mem_toFinset.mp hjf
    exact ⟨_get_node_set l, List.mem_map_of_mem _ hl,
      listMinNat_le l j hjl, le_listMaxNat l j hjl⟩

/-- Witness for C9 on the concrete partition `[[0, 1], [2]]` of
`[0, 3)`. -/
theorem nodeset_partition_witness :
    n_nodes ([[0, 1], [2]].map _get_node_set) = 3 :=
  (nodeset_partition [[0, 1], [2]] 3 (by
    refine ⟨by decide, by decide, by decide, ?_⟩
    decide)).1

lemma keySetEq_iff (a b : List String) :
    keySetEq a b = true ↔ ∀ k, k ∈ a ↔ k ∈ b := by
  unfold keySetEq
  rw [Bool.and_eq_true, List.all_eq_true, List.all_eq_true]
  simp only [List.contains, List.elem_eq_mem, decide_eq_true_eq]
  constructor
  · rintro ⟨hab, hba⟩ k
    exact ⟨fun hk => hab k hk, fun hk => hba k hk⟩
  · intro h
    exact ⟨fun k hk => (h k).mp hk, fun k hk => (h k).mpr hk⟩

lemma zipWith_append_getD {α : Type} (xss yss : List (List α)) (r : ℕ)
    (hx : r < xss.length) (hy : r < yss.length) :
    (List.zipWith (fun a b => a ++ b) xss yss).getD r []
      = xss.getD r [] ++ yss.getD r [] := by
  rw [List.getD_eq_getElem?_getD, List.getD_eq_getElem?_getD,
    List.getD_eq_getElem?_getD, List.getElem?_zipWith,
    List.getElem?_eq_getElem hx, List.getElem?_eq_getElem hy]
  rfl

lemma maskSel_nil_mask {β : Type} (l : List β) : maskSel [] l = [] := by
  simp [maskSel]

lemma maskSel_nil {β : Type} (m : List Bool) : maskSel m ([] : List β) = [] := by
  simp [maskSel]

lemma maskSel_cons {β : Type} (b : Bool) (ms : List Bool) (x : β)
    (xs : List β) :
    maskSel (b :: ms) (x :: xs)
      = if b then x :: maskSel ms xs else maskSel ms xs := by
  cases b <;> simp [maskSel, List.zip_cons_cons, List.filterMap_cons]

lemma maskSel_length_congr {β γ : Type} :
    ∀ (m : List Bool) (l1 : List β) (l2 : List γ), l1.length = l2.length →
      (maskSel m l1).length = (maskSel m l2).length := by
  intro m
  induction m with
  | nil => intro l1 l2 h; simp [maskSel_nil_mask]
  | cons b ms ih =>
    intro l1 l2 h
    cases l1 with
    | nil =>
      cases l2 with
      | nil => rfl
      | cons y ys => exact absurd h (by simp)
    | cons x xs =>
      cases l2 with
      | nil => exact absurd h (by simp)
      | cons y ys =>
        have h2 : xs.length = ys.length := by simpa using h
        rw [maskSel_cons, maskSel_cons]
        cases b
        · simpa using ih xs ys h2
        · simpa using ih xs ys h2

lemma maskSel_map {β γ : Type} (f : β → γ) :
    ∀ (m : List Bool) (l : List β),
      maskSel m (l.map f) = (maskSel m l).map f := by
  intro m
  induction m with
  | nil => intro l; simp [maskSel_nil_mask]
  | cons b ms ih =>
    intro l
    cases l with
    | nil => simp [maskSel_nil]
    | cons x xs =>
      rw [List.map_cons, maskSel_cons, maskSel_cons]
      cases b
      · simpa using ih xs
      · simpa using ih xs

lemma maskSel_zip {β γ : Type} :
    ∀ (m : List Bool) (l1 : List β) (l2 : List γ),
      maskSel m (l1.zip l2) = (maskSel m l1).zip (maskSel m l2) := by
  intro m
  induction m with
  | nil => intro l1 l2; simp [maskSel_nil_mask]
  | cons b ms ih =>
    intro l1 l2
    cases l1 with
    | nil => simp [maskSel_nil, maskSel_nil_mask]
    | cons x xs =>
      cases l2 with
      | nil => simp [maskSel_nil]
      | cons y ys =>
        rw [List.zip_cons_cons, maskSel_cons, maskSel_cons, maskSel_cons]
        cases b
        · simpa using ih xs ys
        · simp only [if_pos]
          rw [List.zip_cons_cons, ih xs ys]

lemma maskSel_append_perm {β : Type} :
    ∀ (m : List Bool) (l : List β), m.length = l.length →
      List.Perm
        (maskSel (m.map (fun b => !b)) l ++ maskSel m l) l := by
  intro m
  induction m with
  | nil =>
    intro l h
    have hl : l = [] := List.eq_nil_of_length_eq_zero h.symm
    subst hl
    simp [maskSel_nil_mask]
  | cons b ms ih =>
    intro l h
    cases l with
    | nil => exact absurd h (by simp)
    | cons x xs =>
      have h2 : ms.length = xs.length := by simpa using h
      cases b
      · have e1 : maskSel ((false :: ms).map (fun b => !b)) (x :: xs)
            = x :: maskSel (ms.map (fun b => !b)) xs := by
          simp [maskSel_cons]
        have e2 : maskSel (false :: ms) (x :: xs) = maskSel ms xs := by
          simp [maskSel_cons]
        rw [e1, e2, List.cons_append]
        exact List.Perm.cons x (ih xs h2)
      · have e1 : maskSel ((true :: ms).map (fun b => !b)) (x :: xs)
            = maskSel (ms.map (fun b => !b)) xs := by
          simp [maskSel_cons]
        have e2 : maskSel (true :: ms) (x :: xs) = x :: maskSel ms xs := by
          simp [maskSel_cons]
        rw [e1, e2]
        exact List.Perm.trans List.perm_middle (List.Perm.cons x (ih xs h2))

lemma lookup_map_snd {β γ : Type} (g : β → γ) :
    ∀ (l : List (String × β)) (k : String),
      (l.map (fun kv => (kv.1, g kv.2))).lookup k = (l.lookup k).map g := by
  intro l
  induction l with
  | nil => intro k; rfl
  | cons kv l ih =>
    intro k
    rw [List.map_cons, List.lookup_cons, List.lookup_cons]
    cases h : (k == kv.1)
    · simp [h, ih]
    · simp [h]

lemma lookup_of_mem_nodup {β : Type} :
    ∀ (l : List (String × β)) (kv : String × β),
      (l.map Prod.fst).Nodup → kv ∈ l → l.lookup kv.1 = some kv.2 := by
  intro l
  induction l with
  | nil => intro kv h hm; exact absurd hm (List.not_mem_nil kv)
  | cons a l ih =>
    intro kv hnd hm
    rw [List.map_cons, List.nodup_cons] at hnd
    rcases List.mem_cons.mp hm with h | h
    · subst h
      rw [List.lookup_cons]
      simp
    · have hne : (kv.1 == a.1) = false := by
        apply beq_eq_false_iff_ne.mpr
        intro he
        exact hnd.1 (he ▸ List.mem_map_of_mem Prod.fst h)
      rw [List.lookup_cons]
      simp only [hne]
      exact ih kv hnd.2 h

lemma zipWith_append_map {α : Type} (g h : List α → List α) :
    ∀ (xss : List (List α)),
      List.zipWith (fun a b => a ++ b) (xss.map g) (xss.map h)
        = xss.map (fun r => g r ++ h r) := by
  intro xss
  induction xss with
  | nil => rfl
  | cons r rest ih => simp only [List.map_cons, List.zipWith_cons_cons, ih]

lemma elementLevel_nD {α : Type} (n : ℕ) (v : DVal α)
    (hf : v.isInt = false) (h : isElementLevel n v = true) :
    ∃ xss, v = DVal.nD xss := by
  cases v with
  | oneD xs => exact absurd h (by simp [isElementLevel])
  | nD xss => exact ⟨xss, rfl⟩
  | int2 w rss => exact absurd hf (by simp [DVal.isInt])

lemma elementLevel_dim1 {α : Type} (n : ℕ) (xss : List (List α))
    (h : isElementLevel n (DVal.nD xss) = true) :
    (DVal.nD xss : DVal α).dim1 = n := by
  simpa [isElementLevel, DVal.dim1] using h

lemma elementLevelAttrs_no_edges {α : Type} (es : EdgeSetM α)
    (hx : es.ecols ≠ es.edges.length) :
    elementLevelAttrs es
      = es.attrs.filter (fun kv => isElementLevel es.edges.length kv.2) := by
  unfold elementLevelAttrs dictEntries
  rw [List.filter_cons]
  have hfalse : isElementLevel es.edges.length
      (DVal.int2 es.ecols es.edges : DVal α) = false := by
    simpa [isElementLevel] using hx
  simp [hfalse]

lemma edges_not_mem_elKeys {α : Type} (es : EdgeSetM α)
    (hx : es.ecols ≠ es.edges.length)
    (hshadow : "edges" ∉ es.attrs.map Prod.fst) :
    "edges" ∉ (elementLevelAttrs es).map Prod.fst := by
  rw [elementLevelAttrs_no_edges es hx]
  intro hmem
  obtain ⟨kv, hkv, hk⟩ := List.mem_map.mp hmem
  exact hshadow (hk ▸ List.mem_map_of_mem Prod.fst (List.mem_of_mem_filter hkv))

lemma remove_edges_eq {α : Type} (es : EdgeSetM α) (mask : List Bool)
    (hx : es.ecols ≠ es.edges.length) :
    remove_edges es mask
      = ⟨es.ecols, maskSel (mask.map (fun b => !b)) es.edges,
          es.attrs.map (fun kv =>
            if isElementLevel es.edges.length kv.2 then
              (kv.1, selColsD (mask.map (fun b => !b)) kv.2)
            else kv)⟩ := by
  unfold remove_edges
  have hfalse : isElementLevel es.edges.length
      (DVal.int2 es.ecols es.edges : DVal α) = false := by
    simpa [isElementLevel] using hx
  simp [hfalse]

lemma isElementLevel_selCols {α : Type} (mask : List Bool)
    (E : List (List ℤ)) (v : DVal α) (hm : mask.length = E.length)
    (hf : v.isInt = false) (hel : isElementLevel E.length v = true)
    (hrect : ∀ row ∈ v.rows, row.length = E.length) :
    isElementLevel (maskSel mask E).length (selColsD mask v) = true := by
  cases v with
  | oneD xs => exact absurd hel (by simp [isElementLevel])
  | int2 w rss => exact absurd hf (by simp [DVal.isInt])
  | nD xss =>
    cases xss with
    | nil =>
      have hE : E.length = 0 := by
        have := hel
        simp [isElementLevel] at this
        omega
      have hE2 : E = [] := List.eq_nil_of_length_eq_zero hE
      subst hE2
      have hm2 : mask = [] :=
        List.eq_nil_of_length_eq_zero (by simpa using hm)
      subst hm2
      simp [isElementLevel, selColsD, maskSel_nil_mask]
    | cons r0 rest =>
      have hr0 : r0.length = E.length := hrect r0 (by simp [DVal.rows])
      simp only [selColsD, isElementLevel, List.map_cons, List.head?_cons,
        Option.map_some', Option.getD_some]
      exact beq_iff_eq.mpr (maskSel_length_congr mask r0 E hr0)

lemma elementLevelAttrs_remove {α : Type} (es : EdgeSetM α)
    (mask : List Bool) (hm : mask.length = es.edges.length)
    (hx : es.ecols ≠ es.edges.length)
    (hk2 : es.ecols ≠ (maskSel (mask.map (fun b => !b)) es.edges).length)
    (hfloat : ∀ kv ∈ es.attrs, kv.2.isInt = false)
    (hrect : ∀ kv ∈ es.attrs, isElementLevel es.edges.length kv.2 = true →
        ∀ row ∈ kv.2.rows, row.length = es.edges.length)
    (hstable : ∀ kv ∈ es.attrs,
        isElementLevel es.edges.length kv.2 = false →
        isElementLevel (maskSel (mask.map (fun b => !b)) es.edges).length
          kv.2 = false) :
    elementLevelAttrs (remove_edges es mask)
      = (elementLevelAttrs es).map
          (fun kv => (kv.1, selColsD (mask.map (fun b => !b)) kv.2)) := by
  have hkept : (mask.map (fun b => !b)).length = es.edges.length := by
    simpa using hm
  rw [remove_edges_eq es mask hx, elementLevelAttrs_no_edges es hx]
  show ((dictEntries (⟨es.ecols, maskSel (mask.map (fun b => !b)) es.edges,
      es.attrs.map (fun kv =>
        if isElementLevel es.edges.length kv.2 then
          (kv.1, selColsD (mask.map (fun b => !b)) kv.2)
        else kv)⟩ : EdgeSetM α)).filter (fun kv =>
          isElementLevel (maskSel (mask.map (fun b => !b)) es.edges).length
            kv.2))
    = (es.attrs.filter (fun kv =>
        isElementLevel es.edges.length kv.2)).map
          (fun kv => (kv.1, selColsD (mask.map (fun b => !b)) kv.2))
  unfold dictEntries
  rw [List.filter_cons]
  have hhead : isElementLevel
      (maskSel (mask.map (fun b => !b)) es.edges).length
      (DVal.int2 es.ecols
        (maskSel (mask.map (fun b => !b)) es.edges) : DVal α) = false := by
    simpa [isElementLevel] using hk2
  simp only [hhead, Bool.false_eq_true, if_false]
  rw [List.filter_map]
  have hfilter : es.attrs.filter ((fun kv =>
        isElementLevel (maskSel (mask.map (fun b => !b)) es.edges).length
          kv.2) ∘ (fun kv =>
          if isElementLevel es.edges.length kv.2 then
            (kv.1, selColsD (mask.map (fun b => !b)) kv.2)
          else kv))
      = es.attrs.filter (fun kv => isElementLevel es.edges.length kv.2) := by
    apply List.filter_congr
    intro kv hkv
    simp only [Function.comp]
    by_cases hel : isElementLevel es.edges.length kv.2 = true
    · rw [if_pos hel, hel]
      exact isElementLevel_selCols (mask.map (fun b => !b)) es.edges kv.2
        hkept (hfloat kv hkv) hel (hrect kv hkv hel)
    · have hel2 : isElementLevel es.edges.length kv.2 = false :=
        Bool.eq_false_iff.mpr hel
      rw [if_neg hel, hel2]
      exact hstable kv hkv hel2
  rw [hfilter]
  apply List.map_congr_left
  intro kv hkv
  have hel : isElementLevel es.edges.length kv.2 = true :=
    (List.mem_filter.mp hkv).2
  rw [if_pos hel]

lemma add_edges_cond_iff {α : Type} (es : EdgeSetM α)
    (newE : ℕ × List (List ℤ)) (d : List (String × DVal α)) :
    (keySetEq (d.map Prod.fst) ((elementLevelAttrs es).map Prod.fst)
      && d.all (fun kv => (DVal.promote kv.2).dim1 == newE.2.length)
      && d.all (fun kv =>
          match (elementLevelAttrs es).lookup kv.1 with
          | some v => (DVal.promote kv.2).dim0 == v.dim0
          | none => true)) = true
    ↔ ((∀ k, k ∈ d.map Prod.fst ↔ k ∈ (elementLevelAttrs es).map Prod.fst)
      ∧ (∀ kv ∈ d, (DVal.promote kv.2).dim1 = newE.2.length)
      ∧ (∀ kv ∈ d, ∀ v, (elementLevelAttrs es).lookup kv.1 = some v →
          (DVal.promote kv.2).dim0 = v.dim0)) := by
  rw [Bool.and_eq_true, Bool.and_eq_true, keySetEq_iff,
    List.all_eq_true, List.all_eq_true]
  constructor
  · rintro ⟨⟨hk, h1⟩, h2⟩
    refine ⟨hk, fun kv hkv => by simpa using h1 kv hkv, ?_⟩
    intro kv hkv v hv
    have h3 := h2 kv hkv
    simp only [hv] at h3
    simpa using h3
  · rintro ⟨hk, h1, h2⟩
    refine ⟨⟨hk, fun kv hkv => by simpa using h1 kv hkv⟩, ?_⟩
    intro kv hkv
    show (match (elementLevelAttrs es).lookup kv.1 with
      | some v => (DVal.promote kv.2).dim0 == v.dim0
      | none => true) = true
    cases hv : (elementLevelAttrs es).lookup kv.1 with
    | none => rfl
    | some v => simpa using h2 kv hkv v hv

lemma no_edges_key_of_keysEq {α : Type} (es : EdgeSetM α)
    (d : List (String × DVal α)) (hx : es.ecols ≠ es.edges.length)
    (hshadow : "edges" ∉ es.attrs.map Prod.fst)
    (hk : ∀ k, k ∈ d.map Prod.fst ↔ k ∈ (elementLevelAttrs es).map Prod.fst) :
    ((d.map Prod.fst).contains "edges") = false := by
  rw [← Bool.not_eq_true]
  intro hcon
  have hmem : "edges" ∈ d.map Prod.fst := by
    simpa [List.contains, List.elem_eq_mem] using hcon
  exact edges_not_mem_elKeys es hx hshadow ((hk "edges").mp hmem)

/-- C7 (amended): for an `EdgeSet` whose edge count differs from 2 — when
`n_edges == 2` the source's `__dict__`-scanning `element_level_attr_dict`
additionally classifies the `(n, 2)` edges tensor itself as an
element-level attribute, which adds further failure modes at the final
edge concatenation — and an attribute dict whose values have the stored
(float) dtype, `add_edges` fails iff the attribute-dict key set does not
equal the element-level attribute key set, or some (promoted) value's
edge-axis length differs from the number of new edges, or its batch-axis
length differs from the stored attribute's, or the new edge tensor's
column count differs from the stored edge tensor's (the final
`torch.cat((self.edges, edges))` requirement); on success the new edge
rows are appended after the existing rows, each element-level attribute
is concatenated with its promoted new values along the edge axis
(rowwise append, no reordering, no dedup) and every other stored
attribute is unchanged. -/
theorem add_edges_spec {α : Type} (es : EdgeSetM α)
    (newE : ℕ × List (List ℤ)) (d : List (String × DVal α))
    (hec : es.ecols = 2) (hn2 : es.edges.length ≠ 2)
    (hshadow : "edges" ∉ es.attrs.map Prod.fst)
    (hfloat : ∀ kv ∈ es.attrs, kv.2.isInt = false)
    (hdfloat : ∀ kv ∈ d, kv.2.isInt = false) :
    ((add_edges es newE d).isSome = true ↔
      ((∀ k, k ∈ d.map Prod.fst ↔ k ∈ (elementLevelAttrs es).map Prod.fst)
        ∧ (∀ kv ∈ d, (DVal.promote kv.2).dim1 = newE.2.length)
        ∧ (∀ kv ∈ d, ∀ v, (elementLevelAttrs es).lookup kv.1 = some v →
            (DVal.promote kv.2).dim0 = v.dim0)
        ∧ es.ecols = newE.1))
    ∧ (∀ es2, add_edges es newE d = some es2 →
        es2.edges = es.edges ++ newE.2
        ∧ es2.ecols = es.ecols
        ∧ es2.attrs.length = es.attrs.length
        ∧ (∀ n, n < es.attrs.length →
            (isElementLevel es.edges.length
                  (es.attrs.getD n ("", DVal.nD [])).2 = true →
              (d.map Prod.fst).contains
                  (es.attrs.getD n ("", DVal.nD [])).1 = true →
              es2.attrs.getD n ("", DVal.nD [])
                = ((es.attrs.getD n ("", DVal.nD [])).1,
                   catDim1D (es.attrs.getD n ("", DVal.nD [])).2
                     (DVal.promote
                       ((d.lookup (es.attrs.getD n ("", DVal.nD [])).1).getD
                         (es.attrs.getD n ("", DVal.nD [])).2))))
            ∧ ((isElementLevel es.edges.length
                    (es.attrs.getD n ("", DVal.nD [])).2 = false
                  ∨ (d.map Prod.fst).contains
                      (es.attrs.getD n ("", DVal.nD [])).1 = false) →
              es2.attrs.getD n ("", DVal.nD [])
                = es.attrs.getD n ("", DVal.nD []))))
    ∧ (∀ (xss yss : List (List α)) (r : ℕ), r < xss.length →
        r < yss.length →
        (catDim1D (DVal.nD xss) (DVal.nD yss)).rows.getD r []
          = xss.getD r [] ++ yss.getD r []) := by
  have hx : es.ecols ≠ es.edges.length := by
    rw [hec]
    exact fun h => hn2 h.symm
  refine ⟨?_, ?_, ?_⟩
  · unfold add_edges
    by_cases hc : (keySetEq (d.map Prod.fst)
        ((elementLevelAttrs es).map Prod.fst)
      && d.all (fun kv => (DVal.promote kv.2).dim1 == newE.2.length)
      && d.all (fun kv =>
          match (elementLevelAttrs es).lookup kv.1 with
          | some v => (DVal.promote kv.2).dim0 == v.dim0
          | none => true)) = true
    · rw [if_pos hc]
      have hprops := (add_edges_cond_iff es newE d).mp hc
      have hnotd := no_edges_key_of_keysEq es d hx hshadow hprops.1
      rw [hnotd]
      simp only [Bool.false_eq_true, if_false]
      by_cases hw : es.ecols = newE.1
      · have hbeq : (es.ecols == newE.1) = true := beq_iff_eq.mpr hw
        rw [hbeq]
        simp only [if_true, Option.isSome_some, true_iff]
        exact ⟨hprops.1, hprops.2.1, hprops.2.2, hw⟩
      · have hbeq : (es.ecols == newE.1) = false :=
          beq_eq_false_iff_ne.mpr hw
        rw [hbeq]
        simp only [Bool.false_eq_true, if_false, Option.isSome_none,
          Bool.false_eq_true, false_iff]
        intro hcontra
        exact hw hcontra.2.2.2
    · rw [if_neg hc]
      simp only [Option.isSome_none, Bool.false_eq_true, false_iff]
      intro hcontra
      exact hc ((add_edges_cond_iff es newE d).mpr
        ⟨hcontra.1, hcontra.2.1, hcontra.2.2.1⟩)
  · intro es2 h
    unfold add_edges at h
    by_cases hc : (keySetEq (d.map Prod.fst)
        ((elementLevelAttrs es).map Prod.fst)
      && d.all (fun kv => (DVal.promote kv.2).dim1 == newE.2.length)
      && d.all (fun kv =>
          match (elementLevelAttrs es).lookup kv.1 with
          | some v => (DVal.promote kv.2).dim0 == v.dim0
          | none => true)) = true
    · rw [if_pos hc] at h
      have hprops := (add_edges_cond_iff es newE d).mp hc
      have hnotd := no_edges_key_of_keysEq es d hx hshadow hprops.1
      rw [hnotd] at h
      simp only [Bool.false_eq_true, if_false] at h
      by_cases hw : es.ecols = newE.1
      · have hbeq : (es.ecols == newE.1) = true := beq_iff_eq.mpr hw
        rw [hbeq] at h
        simp only [if_true] at h
        obtain rfl : es2 = _ := (Option.some.inj h).symm
        refine ⟨rfl, rfl, by simp, ?_⟩
        intro n hn
        have hn2b : n < (es.attrs.map (fun kv =>
            if isElementLevel es.edges.length kv.2
                && (d.map Prod.fst).contains kv.1 then
              (kv.1, catDim1D kv.2
                (DVal.promote ((d.lookup kv.1).getD kv.2)))
            else kv)).length := by
          rw [List.length_map]
          exact hn
        constructor
        · intro hel hcon
          rw [List.getD_eq_getElem _ _ hn] at hel hcon
          rw [List.getD_eq_getElem _ _ hn2b, List.getElem_map,
            List.getD_eq_getElem _ _ hn, if_pos (by rw [hel, hcon]; rfl)]
        · intro hor
          rw [List.getD_eq_getElem _ _ hn] at hor
          rw [List.getD_eq_getElem _ _ hn2b, List.getElem_map,
            List.getD_eq_getElem _ _ hn, if_neg]
          intro hand
          rw [Bool.and_eq_true] at hand
          rcases hor with h2 | h2
          · rw [hand.1] at h2
            exact Bool.true_eq_false.mp h2
          · rw [hand.2] at h2
            exact Bool.true_eq_false.mp h2
      · have hbeq : (es.ecols == newE.1) = false :=
          beq_eq_false_iff_ne.mpr hw
        rw [hbeq] at h
        simp at h
    · rw [if_neg hc] at h
      exact absurd h (by simp)
  · intro xss yss r hxr hyr
    exact zipWith_append_getD xss yss r hxr hyr

/-- Counterexample to C7 as stated (failure is not equivalent to a
key-set mismatch), at two concrete inputs. First: with matching key sets
(`{"w"}` on both sides of a 1-edge set) but a new value of per-edge
length 2 for a single new edge, `add_edges` fails on the source's
`shape[1] == len(edges)` assert. Second: on a 2-edge set the
`__dict__`-scanning `element_level_attr_dict` classifies the edges
tensor itself as element-level, and a call whose dict (keys
`{"edges", "w"}`) passes the key, per-edge-length and batch-dimension
checks still fails: the loop has dim-1-extended `self.edges` to three
columns, so the final `torch.cat((self.edges, edges))` with a
two-column new-edge tensor fails. -/
theorem add_edges_iff_counterexample :
    (keySetEq ([("w", DVal.oneD [(1 : ℚ), 2])].map Prod.fst)
        ((elementLevelAttrs
          (⟨2, [[0, 0]], [("w", DVal.nD [[1]])]⟩ : EdgeSetM ℚ)).map
            Prod.fst) = true
      ∧ add_edges (⟨2, [[0, 0]], [("w", DVal.nD [[1]])]⟩ : EdgeSetM ℚ)
          (2, [[1, 1]]) [("w", DVal.oneD [(1 : ℚ), 2])] = none)
    ∧ (keySetEq ([("edges", (DVal.int2 1 [[7], [8]] : DVal ℚ)),
          ("w", DVal.oneD [(9 : ℚ)])].map Prod.fst)
        ((elementLevelAttrs
          (⟨2, [[0, 0], [1, 1]], [("w", DVal.nD [[1, 2]])]⟩ :
            EdgeSetM ℚ)).map Prod.fst) = true
      ∧ ([("edges", (DVal.int2 1 [[7], [8]] : DVal ℚ)),
          ("w", DVal.oneD [(9 : ℚ)])].all
            (fun kv => (DVal.promote kv.2).dim1 == 1) = true)
      ∧ ([("edges", (DVal.int2 1 [[7], [8]] : DVal ℚ)),
          ("w", DVal.oneD [(9 : ℚ)])].all (fun kv =>
            match (elementLevelAttrs
                (⟨2, [[0, 0], [1, 1]], [("w", DVal.nD [[1, 2]])]⟩ :
                  EdgeSetM ℚ)).lookup kv.1 with
            | some v => (DVal.promote kv.2).dim0 == v.dim0
            | none => true) = true)
      ∧ add_edges (⟨2, [[0, 0], [1, 1]], [("w", DVal.nD [[1, 2]])]⟩ :
            EdgeSetM ℚ) (2, [[5, 5]])
          [("edges", (DVal.int2 1 [[7], [8]] : DVal ℚ)),
            ("w", DVal.oneD [(9 : ℚ)])] = none) := by
  exact ⟨⟨by decide, by decide⟩, by decide, by decide, by decide, by decide⟩

/-- Witness for C7: on a successful concrete `add_edges` call (verified
by evaluation) with one stored edge and one new edge, the theorem yields
the success conditions. -/
theorem add_edges_spec_witness :
    (∀ k, k ∈ [("w", DVal.oneD [(5 : ℚ)])].map Prod.fst ↔
        k ∈ (elementLevelAttrs (⟨2, [[0, 0]],
          [("w", DVal.nD [[(1 : ℚ)]])]⟩ : EdgeSetM ℚ)).map Prod.fst)
    ∧ (∀ kv ∈ [("w", DVal.oneD [(5 : ℚ)])],
        (DVal.promote kv.2).dim1 = ((2, [[1, 1]]) :
          ℕ × List (List ℤ)).2.length)
    ∧ (∀ kv ∈ [("w", DVal.oneD [(5 : ℚ)])], ∀ v,
        (elementLevelAttrs (⟨2, [[0, 0]],
          [("w", DVal.nD [[(1 : ℚ)]])]⟩ : EdgeSetM ℚ)).lookup kv.1
            = some v →
        (DVal.promote kv.2).dim0 = v.dim0)
    ∧ (⟨2, [[0, 0]], [("w", DVal.nD [[(1 : ℚ)]])]⟩ :
        EdgeSetM ℚ).ecols = ((2, [[1, 1]]) : ℕ × List (List ℤ)).1 :=
  (add_edges_spec (⟨2, [[0, 0]], [("w", DVal.nD [[(1 : ℚ)]])]⟩ :
      EdgeSetM ℚ) (2, [[1, 1]]) [("w", DVal.oneD [(5 : ℚ)])]
    (by decide) (by decide) (by decide) (by decide) (by decide)).1.mp
    (by decide)

lemma catround_eq {α : Type} (mask : List Bool) (xss : List (List α)) :
    catDim1D (selColsD (mask.map (fun b => !b)) (DVal.nD xss))
        (selColsD mask (DVal.nD xss))
      = DVal.nD (xss.map (fun r =>
          maskSel (mask.map (fun b => !b)) r ++ maskSel mask r)) := by
  simp [selColsD, catDim1D, zipWith_append_map]

lemma isElementLevel_catround {α : Type} (mask : List Bool)
    (E : List (List ℤ)) (xss : List (List α)) (hm : mask.length = E.length)
    (hel : isElementLevel E.length (DVal.nD xss) = true)
    (hrect : ∀ row ∈ xss, row.length = E.length) :
    isElementLevel E.length
      (catDim1D (selColsD (mask.map (fun b => !b)) (DVal.nD xss))
        (selColsD mask (DVal.nD xss))) = true := by
  rw [catround_eq]
  cases xss with
  | nil => simpa [isElementLevel] using hel
  | cons r0 rest =>
    have hr0 : r0.length = E.length := hrect r0 (by simp)
    simp only [isElementLevel, List.map_cons, List.head?_cons,
      Option.map_some', Option.getD_some, List.length_append]
    have h1 : (maskSel (mask.map (fun b => !b)) r0).length
        = (maskSel (mask.map (fun b => !b)) E).length :=
      maskSel_length_congr _ r0 E hr0
    have h2 : (maskSel mask r0).length = (maskSel mask E).length :=
      maskSel_length_congr _ r0 E hr0
    have h3 : (maskSel (mask.map (fun b => !b)) E).length
        + (maskSel mask E).length = E.length := by
      have := (maskSel_append_perm mask E hm).length_eq
      simpa using this
    rw [h1, h2]
    exact beq_iff_eq.mpr h3

lemma roundtrip_add_eq {α : Type} (es : EdgeSetM α) (mask : List Bool)
    (hm : mask.length = es.edges.length)
    (hx : es.ecols ≠ es.edges.length)
    (hk2 : es.ecols ≠ (maskSel (mask.map (fun b => !b)) es.edges).length)
    (hfloat : ∀ kv ∈ es.attrs, kv.2.isInt = false)
    (hrect : ∀ kv ∈ es.attrs, isElementLevel es.edges.length kv.2 = true →
        ∀ row ∈ kv.2.rows, row.length = es.edges.length)
    (hstable : ∀ kv ∈ es.attrs,
        isElementLevel es.edges.length kv.2 = false →
        isElementLevel (maskSel (mask.map (fun b => !b)) es.edges).length
          kv.2 = false)
    (hnodup : (es.attrs.map Prod.fst).Nodup)
    (hshadow : "edges" ∉ es.attrs.map Prod.fst) :
    add_edges (remove_edges es mask) (get_edges es mask).1
        (get_edges es mask).2
      = some
        { ecols := es.ecols,
          edges := maskSel (mask.map (fun b => !b)) es.edges
            ++ maskSel mask es.edges,
          attrs := es.attrs.map (fun kv =>
            if isElementLevel es.edges.length kv.2 then
              (kv.1, catDim1D (selColsD (mask.map (fun b => !b)) kv.2)
                (selColsD mask kv.2))
            else kv) } := by
  have hkept : (mask.map (fun b => !b)).length = es.edges.length := by
    simpa using hm
  have hELes := elementLevelAttrs_no_edges es hx
  have hnodupEl : ((elementLevelAttrs es).map Prod.fst).Nodup := by
    rw [hELes]
    exact List.Nodup.sublist
      (List.Sublist.map Prod.fst (List.filter_sublist es.attrs)) hnodup
  have hELrem := elementLevelAttrs_remove es mask hm hx hk2 hfloat hrect
    hstable
  have hremEq := remove_edges_eq es mask hx
  -- element-level members come from the attribute store
  have hmemAttrs : ∀ kv ∈ elementLevelAttrs es,
      kv ∈ es.attrs ∧ isElementLevel es.edges.length kv.2 = true := by
    intro kv hkv
    rw [hELes] at hkv
    exact ⟨(List.mem_filter.mp hkv).1, (List.mem_filter.mp hkv).2⟩
  -- the dict handed back by get_edges
  have hd : (get_edges es mask).2
      = (elementLevelAttrs es).map (fun kv => (kv.1, selColsD mask kv.2)) :=
    rfl
  have hne : (get_edges es mask).1 = (es.ecols, maskSel mask es.edges) := rfl
  have hdmem : ∀ kv ∈ (get_edges es mask).2, ∃ kv0,
      kv0 ∈ elementLevelAttrs es ∧ kv = (kv0.1, selColsD mask kv0.2) := by
    intro kv hkv
    rw [hd] at hkv
    obtain ⟨kv0, h0, he⟩ := List.mem_map.mp hkv
    exact ⟨kv0, h0, he.symm⟩
  -- the three asserted success conditions
  have hcond1 : ∀ k, k ∈ (get_edges es mask).2.map Prod.fst ↔
      k ∈ (elementLevelAttrs (remove_edges es mask)).map Prod.fst := by
    intro k
    rw [hELrem, hd, List.map_map, List.map_map]
    exact Iff.rfl
  have hcond2 : ∀ kv ∈ (get_edges es mask).2,
      (DVal.promote kv.2).dim1 = (get_edges es mask).1.2.length := by
    intro kv hkv
    obtain ⟨kv0, h0, he⟩ := hdmem kv hkv
    subst he
    obtain ⟨hmem0, hel⟩ := hmemAttrs kv0 h0
    have hselEl := isElementLevel_selCols mask es.edges kv0.2 hm
      (hfloat kv0 hmem0) hel (hrect kv0 hmem0 hel)
    obtain ⟨xss, hxx⟩ := elementLevel_nD _ _ (hfloat kv0 hmem0) hel
    rw [hxx] at hselEl ⊢
    rw [hne]
    have := elementLevel_dim1 _ _ hselEl
    simpa [selColsD, DVal.promote] using this
  have hcond3 : ∀ kv ∈ (get_edges es mask).2, ∀ v,
      (elementLevelAttrs (remove_edges es mask)).lookup kv.1 = some v →
      (DVal.promote kv.2).dim0 = v.dim0 := by
    intro kv hkv v hv
    obtain ⟨kv0, h0, he⟩ := hdmem kv hkv
    subst he
    rw [hELrem] at hv
    have hl := lookup_map_snd (fun w =>
      selColsD (mask.map (fun b => !b)) w) (elementLevelAttrs es) kv0.1
    rw [lookup_of_mem_nodup _ kv0 hnodupEl h0] at hl
    rw [hl] at hv
    obtain ⟨hmem0, hel⟩ := hmemAttrs kv0 h0
    obtain ⟨xss, hxx⟩ := elementLevel_nD _ _ (hfloat kv0 hmem0) hel
    obtain rfl : selColsD (mask.map (fun b => !b)) kv0.2 = v :=
      Option.some.inj hv
    rw [hxx]
    simp [selColsD, DVal.promote, DVal.dim0]
  have hcond : (keySetEq ((get_edges es mask).2.map Prod.fst)
        ((elementLevelAttrs (remove_edges es mask)).map Prod.fst)
      && (get_edges es mask).2.all
          (fun kv => (DVal.promote kv.2).dim1
            == (get_edges es mask).1.2.length)
      && (get_edges es mask).2.all (fun kv =>
          match (elementLevelAttrs (remove_edges es mask)).lookup kv.1 with
          | some v => (DVal.promote kv.2).dim0 == v.dim0
          | none => true)) = true :=
    (add_edges_cond_iff (remove_edges es mask) (get_edges es mask).1
      (get_edges es mask).2).mpr ⟨hcond1, hcond2, hcond3⟩
  -- the removed set never classifies its edges tensor either
  have hxrem : (remove_edges es mask).ecols
      ≠ (remove_edges es mask).edges.length := by
    rw [hremEq]
    exact hk2
  have hshadowrem : "edges" ∉ (remove_edges es mask).attrs.map Prod.fst := by
    rw [hremEq]
    show "edges" ∉ (es.attrs.map (fun kv =>
      if isElementLevel es.edges.length kv.2 then
        (kv.1, selColsD (mask.map (fun b => !b)) kv.2)
      else kv)).map Prod.fst
    have hkeys : (es.attrs.map (fun kv =>
        if isElementLevel es.edges.length kv.2 then
          (kv.1, selColsD (mask.map (fun b => !b)) kv.2)
        else kv)).map Prod.fst = es.attrs.map Prod.fst := by
      rw [List.map_map]
      apply List.map_congr_left
      intro kv hkv
      simp only [Function.comp]
      by_cases h : isElementLevel es.edges.length kv.2 = true
      · rw [if_pos h]
      · rw [if_neg h]
    rw [hkeys]
    exact hshadow
  have hnotd := no_edges_key_of_keysEq (remove_edges es mask)
    (get_edges es mask).2 hxrem hshadowrem hcond1
  unfold add_edges
  rw [if_pos hcond, hnotd]
  simp only [Bool.false_eq_true, if_false]
  have hbeq : ((remove_edges es mask).ecols == (get_edges es mask).1.1)
      = true := by
    rw [hremEq, hne]
    exact beq_self_eq_true es.ecols
  rw [hbeq]
  simp only [if_true]
  congr 1
  rw [hremEq]
  refine congrArg₂ (EdgeSetM.mk es.ecols) rfl ?_
  show ((es.attrs.map (fun kv =>
      if isElementLevel es.edges.length kv.2 then
        (kv.1, selColsD (mask.map (fun b => !b)) kv.2)
      else kv)).map (fun kv =>
        if isElementLevel
              (maskSel (mask.map (fun b => !b)) es.edges).length kv.2
            && ((get_edges es mask).2.map Prod.fst).contains kv.1 then
          (kv.1, catDim1D kv.2
            (DVal.promote (((get_edges es mask).2.lookup kv.1).getD kv.2)))
        else kv))
    = es.attrs.map (fun kv =>
        if isElementLevel es.edges.length kv.2 then
          (kv.1, catDim1D (selColsD (mask.map (fun b => !b)) kv.2)
            (selColsD mask kv.2))
        else kv)
  rw [List.map_map]
  apply List.map_congr_left
  intro kv hkv
  simp only [Function.comp]
  by_cases hel : isElementLevel es.edges.length kv.2 = true
  · rw [if_pos hel, if_pos hel]
    have hmemEl : kv ∈ elementLevelAttrs es := by
      rw [hELes]
      exact List.mem_filter.mpr ⟨hkv, hel⟩
    have hselEl := isElementLevel_selCols (mask.map (fun b => !b)) es.edges
      kv.2 hkept (hfloat kv hkv) hel (hrect kv hkv hel)
    have hkey : (((get_edges es mask).2.map Prod.fst).contains kv.1)
        = true := by
      rw [hd, List.map_map]
      have : kv.1 ∈ (elementLevelAttrs es).map
          (Prod.fst ∘ fun kv => (kv.1, selColsD mask kv.2)) :=
        List.mem_map_of_mem _ hmemEl
      simpa [List.contains, List.elem_eq_mem] using this
    have hlook : (get_edges es mask).2.lookup kv.1
        = some (selColsD mask kv.2) := by
      rw [hd]
      have hl := lookup_map_snd (fun w => selColsD mask w)
        (elementLevelAttrs es) kv.1
      rw [lookup_of_mem_nodup _ kv hnodupEl hmemEl] at hl
      simpa using hl
    rw [if_pos (by rw [hselEl, hkey]; rfl), hlook]
    obtain ⟨xss, hxx⟩ := elementLevel_nD _ _ (hfloat kv hkv) hel
    rw [hxx]
    simp [selColsD, DVal.promote]
  · have hel2 : isElementLevel es.edges.length kv.2 = false :=
      Bool.eq_false_iff.mpr hel
    have harg : (if isElementLevel es.edges.length kv.2 then
        (kv.1, selColsD (mask.map (fun b => !b)) kv.2) else kv) = kv :=
      if_neg hel
    rw [harg]
    have hc2 : (isElementLevel
        (maskSel (mask.map (fun b => !b)) es.edges).length kv.2
        && (((get_edges es mask).2.map Prod.fst).contains kv.1)) = false := by
      rw [hstable kv hkv hel2]
      rfl
    rw [if_neg (by rw [hc2]; exact Bool.false_ne_true), if_neg hel]

lemma elementLevelAttrs_round {α : Type} (es : EdgeSetM α)
    (mask : List Bool) (hm : mask.length = es.edges.length)
    (hx : es.ecols ≠ es.edges.length)
    (hfloat : ∀ kv ∈ es.attrs, kv.2.isInt = false)
    (hrect : ∀ kv ∈ es.attrs, isElementLevel es.edges.length kv.2 = true →
        ∀ row ∈ kv.2.rows, row.length = es.edges.length) :
    elementLevelAttrs
      { ecols := es.ecols,
        edges := maskSel (mask.map (fun b => !b)) es.edges
          ++ maskSel mask es.edges,
        attrs := es.attrs.map (fun kv =>
          if isElementLevel es.edges.length kv.2 then
            (kv.1, catDim1D (selColsD (mask.map (fun b => !b)) kv.2)
              (selColsD mask kv.2))
          else kv) }
    = (elementLevelAttrs es).map (fun kv =>
        (kv.1, catDim1D (selColsD (mask.map (fun b => !b)) kv.2)
          (selColsD mask kv.2))) := by
  have hlen2 : (maskSel (mask.map (fun b => !b)) es.edges
      ++ maskSel mask es.edges).length = es.edges.length :=
    (maskSel_append_perm mask es.edges hm).length_eq
  rw [elementLevelAttrs_no_edges es hx]
  unfold elementLevelAttrs dictEntries
  rw [List.filter_cons]
  have hhead : isElementLevel
      (maskSel (mask.map (fun b => !b)) es.edges
        ++ maskSel mask es.edges).length
      (DVal.int2 es.ecols (maskSel (mask.map (fun b => !b)) es.edges
        ++ maskSel mask es.edges) : DVal α) = false := by
    rw [show isElementLevel
        (maskSel (mask.map (fun b => !b)) es.edges
          ++ maskSel mask es.edges).length
        (DVal.int2 es.ecols (maskSel (mask.map (fun b => !b)) es.edges
          ++ maskSel mask es.edges) : DVal α)
      = (es.ecols == (maskSel (mask.map (fun b => !b)) es.edges
          ++ maskSel mask es.edges).length) from rfl, hlen2]
    exact beq_eq_false_iff_ne.mpr hx
  simp only [hhead, Bool.false_eq_true, if_false]
  show ((es.attrs.map (fun kv =>
      if isElementLevel es.edges.length kv.2 then
        (kv.1, catDim1D (selColsD (mask.map (fun b => !b)) kv.2)
          (selColsD mask kv.2))
      else kv)).filter (fun kv =>
        isElementLevel (maskSel (mask.map (fun b => !b)) es.edges
          ++ maskSel mask es.edges).length kv.2))
    = (es.attrs.filter (fun kv =>
        isElementLevel es.edges.length kv.2)).map
          (fun kv => (kv.1, catDim1D (selColsD (mask.map (fun b => !b)) kv.2)
            (selColsD mask kv.2)))
  rw [List.filter_map]
  have hfilter : es.attrs.filter ((fun kv =>
        isElementLevel (maskSel (mask.map (fun b => !b)) es.edges
          ++ maskSel mask es.edges).length kv.2) ∘ (fun kv =>
          if isElementLevel es.edges.length kv.2 then
            (kv.1, catDim1D (selColsD (mask.map (fun b => !b)) kv.2)
              (selColsD mask kv.2))
          else kv))
      = es.attrs.filter (fun kv => isElementLevel es.edges.length kv.2) := by
    apply List.filter_congr
    intro kv hkv
    simp only [Function.comp, hlen2]
    by_cases hel : isElementLevel es.edges.length kv.2 = true
    · rw [if_pos hel, hel]
      obtain ⟨xss, hxx⟩ := elementLevel_nD _ _ (hfloat kv hkv) hel
      show isElementLevel es.edges.length
        (catDim1D (selColsD (mask.map (fun b => !b)) kv.2)
          (selColsD mask kv.2)) = true
      rw [hxx] at hel ⊢
      have hrows := hrect kv hkv (by rw [hxx]; exact hel)
      rw [hxx] at hrows
      exact isElementLevel_catround mask es.edges xss hm hel hrows
    · have hel2 : isElementLevel es.edges.length kv.2 = false :=
        Bool.eq_false_iff.mpr hel
      rw [if_neg hel, hel2]
  rw [hfilter]
  apply List.map_congr_left
  intro kv hkv
  have hel : isElementLevel es.edges.length kv.2 = true :=
    (List.mem_filter.mp hkv).2
  rw [if_pos hel]

/-- Counterexample to C8 as stated: on the 3-edge set with one weight
attribute, removing one edge leaves 2 kept edges, and the source's
`__dict__`-scanning `element_level_attr_dict` then classifies the
remaining `(2, 2)` edges tensor itself as an element-level attribute.
The attribute dict returned by `get_edges` (computed on the 3-edge set)
holds only the key `"w"`, so the add-back's key-set assert fails: the
round trip raises instead of reproducing the original edge set. -/
theorem edge_mutation_roundtrip_counterexample :
    ((remove_edges (⟨2, [[0, 0], [1, 1], [2, 2]],
        [("w", DVal.nD [[(5 : ℚ), 7, 9]])]⟩ : EdgeSetM ℚ)
        [true, false, false]).edges.length = 2)
    ∧ ((elementLevelAttrs (remove_edges
        (⟨2, [[0, 0], [1, 1], [2, 2]],
          [("w", DVal.nD [[(5 : ℚ), 7, 9]])]⟩ : EdgeSetM ℚ)
        [true, false, false])).map Prod.fst = ["edges", "w"])
    ∧ ((get_edges (⟨2, [[0, 0], [1, 1], [2, 2]],
        [("w", DVal.nD [[(5 : ℚ), 7, 9]])]⟩ : EdgeSetM ℚ)
        [true, false, false]).2.map Prod.fst = ["w"])
    ∧ add_edges
        (remove_edges (⟨2, [[0, 0], [1, 1], [2, 2]],
          [("w", DVal.nD [[(5 : ℚ), 7, 9]])]⟩ : EdgeSetM ℚ)
          [true, false, false])
        (get_edges (⟨2, [[0, 0], [1, 1], [2, 2]],
          [("w", DVal.nD [[(5 : ℚ), 7, 9]])]⟩ : EdgeSetM ℚ)
          [true, false, false]).1
        (get_edges (⟨2, [[0, 0], [1, 1], [2, 2]],
          [("w", DVal.nD [[(5 : ℚ), 7, 9]])]⟩ : EdgeSetM ℚ)
          [true, false, false]).2
      = none := by
  exact ⟨by decide, by decide, by decide, by decide⟩

/-- C8 (amended: neither the edge count nor the number of kept edges may
equal 2 — when either does, the source's `element_level_attr_dict`,
which scans the instance `__dict__`, misclassifies the width-2 edges
tensor as an element-level attribute, and the round trip fails its
key-set assert or corrupts the edge tensor): starting from any `EdgeSet`
with well-formed attributes (float-kind, rectangular element-level
values, stable classification under removal, distinct attribute names
not shadowing the reserved name `"edges"`) and any boolean mask over its
edges, removing the masked edges and then adding back the edges and
attributes returned by `get_edges` succeeds and reproduces an edge set
equal to the original up to row order: the edge rows are a permutation
of the originals, the element-level attribute names are unchanged, and
for every element-level attribute and every batch row the
(edge, attribute value) pairs are a permutation of the original pairs —
attributes stay in lockstep with the edge rows. -/
theorem edge_mutation_roundtrip {α : Type} (es : EdgeSetM α)
    (mask : List Bool) (hec : es.ecols = 2)
    (hn2 : es.edges.length ≠ 2)
    (hk2n : (maskSel (mask.map (fun b => !b)) es.edges).length ≠ 2)
    (hm : mask.length = es.edges.length)
    (hfloat : ∀ kv ∈ es.attrs, kv.2.isInt = false)
    (hrect : ∀ kv ∈ es.attrs, isElementLevel es.edges.length kv.2 = true →
        ∀ row ∈ kv.2.rows, row.length = es.edges.length)
    (hstable : ∀ kv ∈ es.attrs,
        isElementLevel es.edges.length kv.2 = false →
        isElementLevel (maskSel (mask.map (fun b => !b)) es.edges).length
          kv.2 = false)
    (hnodup : (es.attrs.map Prod.fst).Nodup)
    (hshadow : "edges" ∉ es.attrs.map Prod.fst) :
    ∃ es2, add_edges (remove_edges es mask) (get_edges es mask).1
          (get_edges es mask).2 = some es2
      ∧ List.Perm es2.edges es.edges
      ∧ (elementLevelAttrs es2).map Prod.fst
          = (elementLevelAttrs es).map Prod.fst
      ∧ ∀ kv ∈ elementLevelAttrs es, ∃ v2,
          (elementLevelAttrs es2).lookup kv.1 = some v2
          ∧ v2.dim0 = kv.2.dim0
          ∧ ∀ r : ℕ, List.Perm (es2.edges.zip (v2.rows.getD r []))
              (es.edges.zip (kv.2.rows.getD r [])) := by
  have hx : es.ecols ≠ es.edges.length := by
    rw [hec]
    exact fun h => hn2 h.symm
  have hk2 : es.ecols
      ≠ (maskSel (mask.map (fun b => !b)) es.edges).length := by
    rw [hec]
    exact fun h => hk2n h.symm
  have hELes := elementLevelAttrs_no_edges es hx
  have hnodupEl : ((elementLevelAttrs es).map Prod.fst).Nodup := by
    rw [hELes]
    exact List.Nodup.sublist
      (List.Sublist.map Prod.fst (List.filter_sublist es.attrs)) hnodup
  have hround := elementLevelAttrs_round es mask hm hx hfloat hrect
  refine ⟨_, roundtrip_add_eq es mask hm hx hk2 hfloat hrect hstable
    hnodup hshadow, ?_, ?_, ?_⟩
  · exact maskSel_append_perm mask es.edges hm
  · rw [hround, List.map_map]
    rfl
  · intro kv hkv
    have hmem0 : kv ∈ es.attrs := by
      rw [hELes] at hkv
      exact (List.mem_filter.mp hkv).1
    have hel : isElementLevel es.edges.length kv.2 = true := by
      rw [hELes] at hkv
      exact (List.mem_filter.mp hkv).2
    refine ⟨catDim1D (selColsD (mask.map (fun b => !b)) kv.2)
      (selColsD mask kv.2), ?_, ?_, ?_⟩
    · rw [hround]
      have hl := lookup_map_snd (fun v =>
        catDim1D (selColsD (mask.map (fun b => !b)) v) (selColsD mask v))
        (elementLevelAttrs es) kv.1
      rw [lookup_of_mem_nodup _ kv hnodupEl hkv] at hl
      simpa using hl
    · obtain ⟨xss, hxx⟩ := elementLevel_nD _ _ (hfloat kv hmem0) hel
      rw [hxx, catround_eq]
      simp [DVal.dim0]
    · intro r
      obtain ⟨xss, hxx⟩ := elementLevel_nD _ _ (hfloat kv hmem0) hel
      have hrows := hrect kv hmem0 hel
      rw [hxx] at hrows
      rw [hxx, catround_eq]
      show List.Perm
        ((maskSel (mask.map (fun b => !b)) es.edges
            ++ maskSel mask es.edges).zip
          (((xss.map (fun row =>
            maskSel (mask.map (fun b => !b)) row
              ++ maskSel mask row)) : List (List α)).getD r []))
        (es.edges.zip ((DVal.nD xss : DVal α).rows.getD r []))
      by_cases hr : r < xss.length
      · have hr2 : r < (xss.map (fun row =>
            maskSel (mask.map (fun b => !b)) row
              ++ maskSel mask row)).length := by
          rw [List.length_map]
          exact hr
        rw [List.getD_eq_getElem _ _ hr2, List.getElem_map]
        show List.Perm
          ((maskSel (mask.map (fun b => !b)) es.edges
              ++ maskSel mask es.edges).zip
            (maskSel (mask.map (fun b => !b)) (xss.get ⟨r, hr⟩)
              ++ maskSel mask (xss.get ⟨r, hr⟩)))
          (es.edges.zip ((DVal.nD xss : DVal α).rows.getD r []))
        have hvr : (DVal.nD xss : DVal α).rows.getD r []
            = xss.get ⟨r, hr⟩ := by
          show xss.getD r [] = xss.get ⟨r, hr⟩
          rw [List.getD_eq_getElem _ _ hr]
          rfl
        rw [hvr]
        have hvrlen : (xss.get ⟨r, hr⟩).length = es.edges.length :=
          hrows (xss.get ⟨r, hr⟩) (List.get_mem xss r hr)
        have hlenK : (maskSel (mask.map (fun b => !b)) es.edges).length
            = (maskSel (mask.map (fun b => !b)) (xss.get ⟨r, hr⟩)).length :=
          maskSel_length_congr _ es.edges (xss.get ⟨r, hr⟩) hvrlen.symm
        rw [List.zip_append hlenK, ← maskSel_zip, ← maskSel_zip]
        have hmz : mask.length = (es.edges.zip (xss.get ⟨r, hr⟩)).length := by
          rw [List.length_zip, hvrlen]
          simp [hm]
        exact maskSel_append_perm mask (es.edges.zip (xss.get ⟨r, hr⟩)) hmz
      · have hge : xss.length ≤ r := Nat.le_of_not_lt hr
        have h1 : (xss.map (fun row =>
            maskSel (mask.map (fun b => !b)) row
              ++ maskSel mask row)).getD r ([] : List α) = [] := by
          rw [List.getD_eq_getElem?_getD,
            List.getElem?_eq_none (by rw [List.length_map]; exact hge)]
          rfl
        have h2 : (DVal.nD xss : DVal α).rows.getD r [] = [] := by
          show xss.getD r [] = []
          rw [List.getD_eq_getElem?_getD, List.getElem?_eq_none hge]
          rfl
        rw [h1, h2, List.zip_nil_right, List.zip_nil_right]

/-- Witness for C8 on a concrete three-edge set with one weight
attribute, removing the first two edges (one edge kept, so neither edge
count equals 2). -/
theorem edge_mutation_roundtrip_witness :
    ∃ es2, add_edges
        (remove_edges (⟨2, [[0, 1], [2, 3], [4, 5]],
          [("w", DVal.nD [[(5 : ℚ), 7, 9]])]⟩ : EdgeSetM ℚ)
          [true, true, false])
        (get_edges (⟨2, [[0, 1], [2, 3], [4, 5]],
          [("w", DVal.nD [[(5 : ℚ), 7, 9]])]⟩ : EdgeSetM ℚ)
          [true, true, false]).1
        (get_edges (⟨2, [[0, 1], [2, 3], [4, 5]],
          [("w", DVal.nD [[(5 : ℚ), 7, 9]])]⟩ : EdgeSetM ℚ)
          [true, true, false]).2
      = some es2
    ∧ List.Perm es2.edges
        (⟨2, [[0, 1], [2, 3], [4, 5]],
          [("w", DVal.nD [[(5 : ℚ), 7, 9]])]⟩ : EdgeSetM ℚ).edges := by
  obtain ⟨es2, h1, h2, h3⟩ := edge_mutation_roundtrip
    (⟨2, [[0, 1], [2, 3], [4, 5]],
      [("w", DVal.nD [[(5 : ℚ), 7, 9]])]⟩ : EdgeSetM ℚ)
    [true, true, false] (by decide) (by decide) (by decide) (by decide)
    (by decide) (by decide) (by decide) (by decide) (by decide)
  exact ⟨es2, h1, h2⟩
